import Mathlib

/-!
Plan refiner: condition checker, sort bypass and index range construction.

A shallow embedding of `optimizer/plan/refiner.go`: the condition checker
(`conditionChecker.check`, `checkBinaryOperation`, `checkColumnExpr`), the
sort-bypass analysis (`refiner.sortBypass`), the index range construction
(`refiner.buildIndexRange`) and the traversal callbacks (`refiner.Enter`,
`refiner.Leave`), with the theorems that relate them to the written
specification.

Conventions of the embedding.

* A Go `string` is its sequence of bytes (`GoString`).
* A function that can stop with a Go run-time panic (an index out of range, a
  failed type assertion) returns an `Option`; `none` is the panic.
* Pointers that the code dereferences without a nil test (`cn.Refer`,
  `Refer.Table`, `Refer.Column`, `c.idx`, `r.indexScan.Index`,
  `r.indexScan.Table`, the `*ByItem` and `*IndexColumn` slice elements) are
  embedded as the value they point to: the plan is resolved before refinement.
* The methods of `rangeBuilder` and the functions of package `ast` are not part
  of the embedded file; they are parameters (`RangeBuilderOps`, `Ast`).
-/

namespace Plan

/-! ## Data model -/

/-- A Go string: an immutable sequence of bytes. -/
abbrev GoString := List UInt8

/-- The bytes (UTF-8) of a string literal. -/
def str (s : String) : GoString := s.toUTF8.data.toList

/-- Go slice indexing `xs[i]` with a signed index: `none` is the run-time
panic "index out of range". -/
def indexAt {α : Type} (xs : List α) (i : Int) : Option α :=
  if i < 0 then none else xs[i.toNat]?

/-- Modelled from the spec: `model.CIStr` (package model, not in src), a
case-insensitive name. `O` is the name as written, `L` the lower-cased form
that is used for every comparison of names. -/
structure CIStr where
  O : GoString
  L : GoString
  deriving DecidableEq, Repr

/-- The part of `model.ColumnInfo` the refiner reads. -/
structure ColumnInfo where
  Name : CIStr
  deriving DecidableEq, Repr

/-- The part of `model.TableInfo` the refiner reads. -/
structure TableInfo where
  Name : CIStr
  deriving DecidableEq, Repr

/-- The column descriptor `model.IndexColumn` of an index: name and ordinal
position in the table. -/
structure IndexColumn where
  Name : CIStr
  Offset : Int
  deriving DecidableEq, Repr

/-- The index definition `model.IndexInfo`: an ordered sequence of column
descriptors. -/
structure IndexInfo where
  Columns : List IndexColumn
  deriving DecidableEq, Repr

/-- The resolved reference `ast.ResultField` of a column name. -/
structure ResultField where
  Column : ColumnInfo
  Table : TableInfo
  deriving DecidableEq, Repr

/-- The node `ast.ColumnNameExpr`, a bare column reference; `Refer` is the
resolved table and column. -/
structure ColumnNameExpr where
  Refer : ResultField
  deriving DecidableEq, Repr

/-- The operator codes `opcode.Op`: the eight the refiner names, and any other
operator. -/
inductive Op where
  | AndAnd
  | OrOr
  | EQ
  | NE
  | GE
  | GT
  | LE
  | LT
  | Other (code : Nat)
  deriving DecidableEq, Repr

/-- The dynamic value returned by `GetValue()` (an `interface{}`): a Go string
or a value of another dynamic type. -/
inductive Value where
  | null
  | int64 (v : Int)
  | string (s : GoString)
  | bytes (b : List UInt8)
  deriving DecidableEq, Repr

/-- The expression nodes `ast.ExprNode`: one constructor for each node type the
checker switches on, `ValueExpr` for a literal and `Other` for every other
node type. -/
inductive ExprNode where
  | BinaryOperationExpr (Op : Op) (L R : ExprNode)
  | ParenthesesExpr (Expr : ExprNode)
  | PatternInExpr (Expr : ExprNode) (List : List ExprNode) (Not : Bool)
      (Sel : Option ExprNode)
  | PatternLikeExpr (Expr Pattern : ExprNode) (Not : Bool)
  | BetweenExpr (Expr Left Right : ExprNode) (Not : Bool)
  | IsNullExpr (Expr : ExprNode) (Not : Bool)
  | IsTruthExpr (Expr : ExprNode) (Not : Bool) (True : Int)
  | ColumnNameExpr (cn : ColumnNameExpr)
  | ValueExpr (v : Value)
  | Other (kind : Nat)

/-- Modelled from the spec: the expression-evaluation collaborator (package
ast, not in src): `ast.IsPreEvaluable`, the test "is this value known at
optimization time", and the literal-value extraction `GetValue()`; both total
and free of side effects. -/
structure Ast where
  IsPreEvaluable : ExprNode → Bool
  GetValue : ExprNode → Value

/-- The struct `conditionChecker`. -/
structure conditionChecker where
  tableName : CIStr
  idx : IndexInfo
  columnOffset : Int
  deriving DecidableEq, Repr

/-! ## The condition checker -/

/-- The method `conditionChecker.checkColumnExpr`. -/
def checkColumnExpr (c : conditionChecker) (expr : ExprNode) : Option Bool :=
  match expr with
  | .ColumnNameExpr cn =>
    if cn.Refer.Table.Name.L != c.tableName.L then some false
    else
      match indexAt c.idx.Columns c.columnOffset with
      | none => none
      | some indexColumn =>
        if cn.Refer.Column.Name.L != indexColumn.Name.L then some false
        else some true
  | _ => some false

/-- The expression `patternStr[0]`, the first byte of a string: `none` is the
panic on the empty string. -/
def firstByte (patternStr : GoString) : Option UInt8 :=
  patternStr.head?

/-- The byte `'%'`. -/
def percent : UInt8 := 37

/-- The byte `'.'`. -/
def dot : UInt8 := 46

/-- The method `conditionChecker.checkBinaryOperation`, on the fields `Op`,
`L` and `R` of the node. The two recursive calls `c.check(b.L)` and
`c.check(b.R)` are passed in as `checkL` and `checkR`; `checkR` is looked at
only where the Go `&&` evaluates its right operand. -/
def checkBinaryOperation (a : Ast) (c : conditionChecker) (op : Op)
    (l r : ExprNode) (checkL checkR : Option Bool) : Option Bool :=
  match op with
  | .OrOr =>
    match checkL with
    | none => none
    | some false => some false
    | some true => checkR
  | .AndAnd =>
    match checkL with
    | none => none
    | some false => some false
    | some true => checkR
  | .EQ | .NE | .GE | .GT | .LE | .LT =>
    if a.IsPreEvaluable l then checkColumnExpr c r
    else if a.IsPreEvaluable r then checkColumnExpr c l
    else some false
  | .Other _ => some false

/-- The method `conditionChecker.check`. -/
def check (a : Ast) (c : conditionChecker) : ExprNode → Option Bool
  | .BinaryOperationExpr op l r =>
    checkBinaryOperation a c op l r (check a c l) (check a c r)
  | .ParenthesesExpr e => check a c e
  | .PatternInExpr e list not sel =>
    if sel.isSome || not then some false
    else
      match checkColumnExpr c e with
      | none => none
      | some false => some false
      | some true => some (list.all a.IsPreEvaluable)
  | .PatternLikeExpr e pattern not =>
    if not then some false
    else
      match checkColumnExpr c e with
      | none => none
      | some false => some false
      | some true =>
        if !a.IsPreEvaluable pattern then some false
        else
          match a.GetValue pattern with
          | .string patternStr =>
            match firstByte patternStr with
            | none => none
            | some firstChar => some (firstChar != percent && firstChar != dot)
          | _ => none
  | .BetweenExpr e left right _ =>
    if a.IsPreEvaluable left && a.IsPreEvaluable right then
      match checkColumnExpr c e with
      | none => none
      | some true => some true
      | some false => some false
    else some false
  | .IsNullExpr e _ =>
    match checkColumnExpr c e with
    | none => none
    | some true => some true
    | some false => some false
  | .IsTruthExpr e _ _ =>
    match checkColumnExpr c e with
    | none => none
    | some true => some true
    | some false => some false
  | .ColumnNameExpr cn => checkColumnExpr c (.ColumnNameExpr cn)
  | _ => some false

/-! ## Sort bypass -/

/-- Modelled from the spec: `IndexRange` (package plan, not in src), "a tuple
of per-column scalar values/intervals": the low and the high key of a region of
the index, each with its exclusion flag. -/
structure IndexRange where
  LowVal : List Value
  LowExclude : Bool
  HighVal : List Value
  HighExclude : Bool
  deriving DecidableEq, Repr

/-- The plan node `IndexScan`: index definition, table identity, resulting
range list and descending-scan flag. -/
structure IndexScan where
  Index : IndexInfo
  Table : TableInfo
  Ranges : List IndexRange := []
  Desc : Bool := false
  deriving DecidableEq, Repr

/-- A sort key `ByItem`: expression and descending flag. -/
structure ByItem where
  Expr : ExprNode
  Desc : Bool

/-- The plan node `Sort` (a reserved word here, hence `SortPlan`): the ordered
sort keys and the bypass flag. -/
structure SortPlan where
  ByItems : List ByItem
  Bypass : Bool := false

/-- The struct `refiner`. The pointer `indexScan` is embedded as the scan it
points to (`none` is nil); an assignment through it updates that scan. -/
structure refiner where
  conditions : List ExprNode := []
  indexScan : Option IndexScan := none
  err : Option GoString := none

/-- How the `for i, val := range p.ByItems` loop of `sortBypass` ends. -/
inductive LoopExit where
  | panicked
  | returned
  | completed (desc : Bool)
  deriving DecidableEq, Repr

/-- The loop `for i, val := range p.ByItems` of `sortBypass`, from position
`i` with the local `desc`, over the keys still to visit. `returned` is one of
the three `return` statements of the body, `panicked` an out-of-range
`idx.Columns[i]`, `completed desc` the normal end with the final `desc`. -/
def sortBypassLoop (scan : IndexScan) : List ByItem → Nat → Bool → LoopExit
  | [], _, desc => .completed desc
  | val :: rest, i, desc =>
    let desc := if val.Desc then true else desc
    match val.Expr with
    | .ColumnNameExpr cn =>
      if scan.Table.Name.L != cn.Refer.Table.Name.L then .returned
      else
        match scan.Index.Columns[i]? with
        | none => .panicked
        | some indexColumn =>
          if indexColumn.Name.L != cn.Refer.Column.Name.L then .returned
          else sortBypassLoop scan rest (i + 1) desc
    | _ => .returned

/-- The method `refiner.sortBypass`: the refiner and the Sort node after the
call, `none` for a run-time panic. -/
def sortBypass (r : refiner) (p : SortPlan) : Option (refiner × SortPlan) :=
  match r.indexScan with
  | none => some (r, p)
  | some scan =>
    if p.ByItems.length > scan.Index.Columns.length then some (r, p)
    else
      match sortBypassLoop scan p.ByItems 0 false with
      | .panicked => none
      | .returned => some (r, p)
      | .completed true =>
        some ({ r with indexScan := some { scan with Desc := true } }, p)
      | .completed false => some (r, { p with Bypass := true })

/-! ## Index range construction -/

/-- Modelled from the spec: the value of a range point (package plan, not in
src): a scalar value, nil being the minimum, or the sentinel maximum
`MaxVal`. -/
inductive PointValue where
  | val (v : Value)
  | MaxVal
  deriving DecidableEq, Repr

/-- Modelled from the spec: `rangePoint` (package plan, not in src), one
boundary of an interval: its value, whether it is exclusive, and whether it is
a start boundary. -/
structure rangePoint where
  value : PointValue := .val .null
  excl : Bool := false
  start : Bool := false
  deriving DecidableEq, Repr

/-- The variable `fullRange`: the single interval from the minimum to
`MaxVal`. -/
def fullRange : List rangePoint :=
  [{ start := true }, { value := .MaxVal }]

/-- The struct `rangeBuilder` (package plan, not in src), with the one field
the refiner reads. The zero value `rangeBuilder{}` is `{}`. -/
structure rangeBuilder where
  err : Option GoString := none
  deriving DecidableEq, Repr

/-- Modelled from the spec: the methods of `rangeBuilder` (package plan, not
in src) that `buildIndexRange` calls. Each is a deterministic function of the
builder and its arguments, and returns the builder after the call (the method
may set `err`) with its result. -/
structure RangeBuilderOps where
  build : rangeBuilder → ExprNode → rangeBuilder × List rangePoint
  intersection : rangeBuilder → List rangePoint → List rangePoint →
    rangeBuilder × List rangePoint
  buildIndexRanges : rangeBuilder → List rangePoint →
    rangeBuilder × List IndexRange
  appendIndexRanges : rangeBuilder → List IndexRange → List rangePoint →
    rangeBuilder × List IndexRange

/-- The composite literal `conditionChecker{idx: p.Index, tableName:
p.Table.Name, columnOffset: i}` of `buildIndexRange`. -/
def columnChecker (p : IndexScan) (i : Nat) : conditionChecker :=
  { tableName := p.Table.Name, idx := p.Index, columnOffset := i }

/-- The inner loop `for _, cond := range r.conditions` of `buildIndexRange`,
over the conditions still to visit, with the builder and the locals
`rangePoints` and `columnUsed`; `none` is a panic of `checker.check`. In
`rb.intersection(rangePoints, rb.build(cond))` the argument `rb.build(cond)` is
evaluated first. -/
def conditionLoop (a : Ast) (ops : RangeBuilderOps) (checker : conditionChecker) :
    List ExprNode → rangeBuilder → List rangePoint → Bool →
      Option (rangeBuilder × List rangePoint × Bool)
  | [], rb, rangePoints, columnUsed => some (rb, rangePoints, columnUsed)
  | cond :: rest, rb, rangePoints, columnUsed =>
    match check a checker cond with
    | none => none
    | some true =>
      let built := ops.build rb cond
      let met := ops.intersection built.1 rangePoints built.2
      conditionLoop a ops checker rest met.1 met.2 true
    | some false => conditionLoop a ops checker rest rb rangePoints columnUsed

/-- The outer loop `for i := 0; i < len(p.Index.Columns); i++` of
`buildIndexRange`, at column `i` with `n` columns still to visit (`n` is
`len(p.Index.Columns) - i`, so that the loop ends when `n` is zero), with the
builder and the scan; `none` is a panic. -/
def columnLoop (a : Ast) (ops : RangeBuilderOps) (conditions : List ExprNode) :
    Nat → Nat → rangeBuilder → IndexScan → Option (rangeBuilder × IndexScan)
  | 0, _, rb, p => some (rb, p)
  | n + 1, i, rb, p =>
    match conditionLoop a ops (columnChecker p i) conditions rb fullRange false with
    | none => none
    | some (rb, _, false) => some (rb, p)
    | some (rb, rangePoints, true) =>
      if i = 0 then
        let built := ops.buildIndexRanges rb rangePoints
        columnLoop a ops conditions n (i + 1) built.1 { p with Ranges := built.2 }
      else
        let built := ops.appendIndexRanges rb p.Ranges rangePoints
        columnLoop a ops conditions n (i + 1) built.1 { p with Ranges := built.2 }

/-- The method `refiner.buildIndexRange`: the refiner and the scan after the
call, `none` for a run-time panic. -/
def buildIndexRange (a : Ast) (ops : RangeBuilderOps) (r : refiner)
    (p : IndexScan) : Option (refiner × IndexScan) :=
  match columnLoop a ops r.conditions p.Index.Columns.length 0 {} p with
  | none => none
  | some (rb, p) => some ({ r with err := rb.err }, p)

/-! ## The traversal callbacks -/

/-- The plan node `Filter`: its condition list. -/
structure Filter where
  Conditions : List ExprNode

/-- Modelled from the spec: the plan node `Limit` (package plan, not in src),
which "owns row-count bound". -/
structure Limit where
  Offset : Nat
  Count : Nat
  deriving DecidableEq, Repr

/-- The plan nodes `Plan` as the callbacks see them: the four node types the
refiner switches on, each with its own attributes, and any other node type.
The children of a node are visited by the traversal and are not read by the
callbacks. -/
inductive Plan where
  | Filter (x : Filter)
  | IndexScan (x : IndexScan)
  | Sort (x : SortPlan)
  | Limit (x : Limit)
  | Other (kind : Nat)

/-- The collaborators of the callbacks that are not in src: the expression
evaluation, the range builder, and the call `x.SetLimit(0)` on a Limit
node. -/
structure Env where
  ast : Ast
  ops : RangeBuilderOps
  SetLimit0 : Limit → Limit

/-- The method `refiner.Enter`: the refiner after the call and the two
results. -/
def Enter (r : refiner) (input : Plan) : refiner × Plan × Bool :=
  match input with
  | .Filter x => ({ r with conditions := x.Conditions }, input, false)
  | .IndexScan x => ({ r with indexScan := some x }, input, false)
  | _ => (r, input, false)

/-- The method `refiner.Leave`: the refiner after the call and the two
results, the node with its attributes updated and `r.err == nil`; `none` for a
run-time panic. Nodes are values here, where the code shares one node between
the plan and `r.indexScan`: the refiner's own view of the active scan carries
the fields `sortBypass` reads and writes (`Index`, `Table`, `Desc`), and the
ranges are tracked on the node that `Leave` returns. The `Ranges` of the
refiner's view and the `Desc` of a node returned earlier are therefore not
kept up to date, and nothing below reads them. -/
def Leave (env : Env) (r : refiner) (input : Plan) :
    Option (refiner × Plan × Bool) :=
  match input with
  | .IndexScan x =>
    match buildIndexRange env.ast env.ops r x with
    | none => none
    | some (r, x) => some (r, .IndexScan x, r.err.isNone)
  | .Sort x =>
    match sortBypass r x with
    | none => none
    | some (r, x) => some (r, .Sort x, r.err.isNone)
  | .Limit x => some (r, .Limit (env.SetLimit0 x), r.err.isNone)
  | _ => some (r, input, r.err.isNone)

/-- One callback of a traversal: `Enter` or `Leave` on a node. -/
inductive Visit where
  | enter (node : Plan)
  | leave (node : Plan)

/-- The refiner after a sequence of callbacks, in order; `none` when one of
them panics. -/
def runVisits (env : Env) : refiner → List Visit → Option refiner
  | r, [] => some r
  | r, .enter node :: rest => runVisits env (Enter r node).1 rest
  | r, .leave node :: rest =>
    match Leave env r node with
    | none => none
    | some out => runVisits env out.1 rest

/-- Modelled from the spec: the traversal `p.Accept(&r)` (package plan, not
in src), on the callbacks it holds for the plan in order, `Enter` on a node
before its children and `Leave` after them: the callbacks are made in
sequence, and the traversal is aborted after the first `Leave` that returns
`false` ("abort traversal on the first error", "stop walking on first error").
The result is the refiner at the end and whether the traversal ran to its end;
`none` when a callback panics. -/
def walkVisits (env : Env) : refiner → List Visit → Option (refiner × Bool)
  | r, [] => some (r, true)
  | r, .enter node :: rest => walkVisits env (Enter r node).1 rest
  | r, .leave node :: rest =>
    match Leave env r node with
    | none => none
    | some out =>
      if out.2.2 then walkVisits env out.1 rest else some (out.1, false)

/-- The function `refine`, on the callbacks of the traversal of the plan:
`r := refiner{}`, the traversal, `return r.err`; `none` when a callback
panics. -/
def refine (env : Env) (visits : List Visit) : Option (Option GoString) :=
  match walkVisits env {} visits with
  | none => none
  | some out => some out.1.err

/-! ## The properties of the specification -/

/-- The expression `e` is a bare reference to the target column of the checker:
a column reference whose table name is the checker's table name and whose
column name is the name of the index column at `columnOffset`, names being
compared as the code compares them, by their `L` form. -/
def IsTargetColumn (c : conditionChecker) (e : ExprNode) : Prop :=
  ∃ cn col, e = .ColumnNameExpr cn ∧
    indexAt c.idx.Columns c.columnOffset = some col ∧
    cn.Refer.Table.Name.L = c.tableName.L ∧
    cn.Refer.Column.Name.L = col.Name.L

/-- The name `s` is well formed for the lower-casing function `toLower`
(`strings.ToLower`): its `L` form is the lower-cased `O` form. -/
def CIStr.WellFormed (toLower : GoString → GoString) (s : CIStr) : Prop :=
  s.L = toLower s.O

/-- Two strings are equal ignoring letter case: they have the same lower-cased
form. -/
def EqualIgnoringCase (toLower : GoString → GoString) (s t : GoString) : Prop :=
  toLower s = toLower t

/-- The sort key `item` at position `i` matches the index scan: it is a bare
column reference to the table of the scan and to the index column at position
`i`. -/
def KeyMatches (scan : IndexScan) (i : Nat) (item : ByItem) : Prop :=
  ∃ cn col, item.Expr = .ColumnNameExpr cn ∧
    scan.Index.Columns[i]? = some col ∧
    cn.Refer.Table.Name.L = scan.Table.Name.L ∧
    cn.Refer.Column.Name.L = col.Name.L

/-- Every sort key, in order, matches the index column at its position. -/
def AllKeysMatch (scan : IndexScan) (items : List ByItem) : Prop :=
  ∀ i item, items[i]? = some item → KeyMatches scan i item

/-- The active conditions that pass the checker, in list order. -/
def passing (a : Ast) (checker : conditionChecker) (conditions : List ExprNode) :
    List ExprNode :=
  conditions.filter fun cond => check a checker cond == some true

/-- One step of the fold for a column: `intersection(points, build(cond))`. -/
def pointsStep (ops : RangeBuilderOps) (acc : rangeBuilder × List rangePoint)
    (cond : ExprNode) : rangeBuilder × List rangePoint :=
  let built := ops.build acc.1 cond
  ops.intersection built.1 acc.2 built.2

/-- The range points of a column: the left fold of `intersection`, starting
from the full range, over `build(cond)` for the given conditions in list
order, with the builder after the fold. -/
def columnPoints (ops : RangeBuilderOps) (rb : rangeBuilder)
    (conditions : List ExprNode) : rangeBuilder × List rangePoint :=
  conditions.foldl (pointsStep ops) (rb, fullRange)

/-- The ranges from the first `k` index columns, with the builder after them:
`appendIndexRanges(... appendIndexRanges(buildIndexRanges(P0), P1) ...,
P(k-1))`, where `Pi` is `columnPoints` over the conditions that pass the
checker at column offset `i`; for `k = 0` the ranges of the scan as they
are. -/
def rangesUpTo (a : Ast) (ops : RangeBuilderOps) (conditions : List ExprNode)
    (p : IndexScan) : Nat → rangeBuilder × List IndexRange
  | 0 => ({}, p.Ranges)
  | k + 1 =>
    let prev := rangesUpTo a ops conditions p k
    let points := columnPoints ops prev.1 (passing a (columnChecker p k) conditions)
    if k = 0 then ops.buildIndexRanges points.1 points.2
    else ops.appendIndexRanges points.1 prev.2 points.2

/-- The scan over the index truncated to its first `k` columns. -/
def truncateIndex (p : IndexScan) (k : Nat) : IndexScan :=
  { p with Index := ⟨p.Index.Columns.take k⟩ }

/-- The outcome of a call on the truncated scan, read on the scan `p` itself:
the index definition of `p` is put back. -/
def withIndexOf {σ : Type} (p : IndexScan) (out : σ × IndexScan) :
    σ × IndexScan :=
  (out.1, { out.2 with Index := p.Index })

/-- The ranges of a plan node: those of an IndexScan, none for another
node. -/
def rangesOf : Plan → List IndexRange
  | .IndexScan x => x.Ranges
  | _ => []

/-- The active conditions after a sequence of callbacks that starts with the
active conditions `active`: the list of the Filter entered last, or `active`
when no Filter is entered. -/
def activeAfter (active : List ExprNode) : List Visit → List ExprNode
  | [] => active
  | .enter (.Filter x) :: rest => activeAfter x.Conditions rest
  | _ :: rest => activeAfter active rest

/-! ## Fixtures: the index `(a, b)` on table `t` -/

/-- Lower-casing of the ASCII letters. -/
def asciiLower (s : GoString) : GoString :=
  s.map fun b => if 65 ≤ b ∧ b ≤ 90 then b + 32 else b

/-- The name `s` with its lower-cased form. -/
def ciName (s : String) : CIStr := ⟨str s, asciiLower (str s)⟩

/-- The bare column reference `t.c`. -/
def colRef (t c : String) : ExprNode :=
  .ColumnNameExpr ⟨⟨⟨ciName c⟩, ⟨ciName t⟩⟩⟩

/-- The integer literal `n`. -/
def intLit (n : Int) : ExprNode := .ValueExpr (.int64 n)

/-- The string literal `s`. -/
def strLit (s : String) : ExprNode := .ValueExpr (.string (str s))

/-- An evaluation collaborator for which exactly the literals are known at
optimization time. -/
def literalAst : Ast where
  IsPreEvaluable e :=
    match e with
    | .ValueExpr _ => true
    | _ => false
  GetValue e :=
    match e with
    | .ValueExpr v => v
    | _ => .null

/-- The index `(a, b)`. -/
def idxAB : IndexInfo := ⟨[⟨ciName "a", 0⟩, ⟨ciName "b", 1⟩]⟩

/-- A checker for the first column of `idxAB` on table `t`. -/
def checkerA : conditionChecker := ⟨ciName "t", idxAB, 0⟩

/-- A scan of `idxAB` on table `t`. -/
def scanAB : IndexScan := { Index := idxAB, Table := ⟨ciName "t"⟩ }

/-- A refiner whose active index scan is `scanAB`. -/
def refinerAB : refiner := { indexScan := some scanAB }

/-- The sort `ORDER BY t.a, t.b`. -/
def sortAscAB : SortPlan :=
  { ByItems := [⟨colRef "t" "a", false⟩, ⟨colRef "t" "b", false⟩] }

/-- The sort `ORDER BY t.a DESC`. -/
def sortDescA : SortPlan := { ByItems := [⟨colRef "t" "a", true⟩] }

/-- The sort `ORDER BY t.a DESC, t.c`, whose second key is not the second
index column. -/
def sortDescAThenC : SortPlan :=
  { ByItems := [⟨colRef "t" "a", true⟩, ⟨colRef "t" "c", false⟩] }

/-- The start points of a list of range points, as scalar values. -/
def startValues (points : List rangePoint) : List Value :=
  points.filterMap fun pt =>
    match pt.start, pt.value with
    | true, .val v => some v
    | _, _ => none

/-- The point interval of a literal. -/
def pointInterval (e : ExprNode) : List rangePoint :=
  match e with
  | .ValueExpr v => [{ value := .val v, start := true }, { value := .val v }]
  | _ => []

/-- A small range builder for the examples. It serves an equality with a
literal on the right and an IN list, each by point intervals, and sets `err`
on any other condition; an intersection with the full range is the other
list; an index range is the point of a start value, and appending extends each
range by each start value. -/
def sampleOps : RangeBuilderOps where
  build rb cond :=
    match cond with
    | .BinaryOperationExpr .EQ _ (.ValueExpr v) => (rb, pointInterval (.ValueExpr v))
    | .PatternInExpr _ list _ _ => (rb, list.flatMap pointInterval)
    | _ => ({ err := some (str "unsupported") }, fullRange)
  intersection rb points other :=
    (rb, if points = fullRange then other
      else if other = fullRange then points
      else points.filter fun pt => pt ∈ other)
  buildIndexRanges rb points :=
    (rb, (startValues points).map fun v => ⟨[v], false, [v], false⟩)
  appendIndexRanges rb ranges points :=
    (rb, ranges.flatMap fun range =>
      (startValues points).map fun v =>
        ⟨range.LowVal ++ [v], range.LowExclude, range.HighVal ++ [v],
          range.HighExclude⟩)

/-- A range builder that records every call: each method sets `err`. -/
def alarmOps : RangeBuilderOps where
  build _ _ := ({ err := some (str "build") }, [])
  intersection _ _ _ := ({ err := some (str "intersection") }, [])
  buildIndexRanges _ _ := ({ err := some (str "buildIndexRanges") }, [])
  appendIndexRanges _ _ _ := ({ err := some (str "appendIndexRanges") }, [])

/-- The collaborators of the examples. -/
def sampleEnv : Env := ⟨literalAst, sampleOps, fun x => x⟩

/-- The condition `t.a = 1`. -/
def condAEq1 : ExprNode := .BinaryOperationExpr .EQ (colRef "t" "a") (intLit 1)

/-- The condition `t.b IN (2, 3)`. -/
def condBIn23 : ExprNode :=
  .PatternInExpr (colRef "t" "b") [intLit 2, intLit 3] false none

/-- The index `(a, b, c)`. -/
def idxABC : IndexInfo := ⟨[⟨ciName "a", 0⟩, ⟨ciName "b", 1⟩, ⟨ciName "c", 2⟩]⟩

/-- A scan of `idxABC` on table `t`. -/
def scanABC : IndexScan := { Index := idxABC, Table := ⟨ciName "t"⟩ }

/-- The condition `t.c = 5`. -/
def condCEq5 : ExprNode := .BinaryOperationExpr .EQ (colRef "t" "c") (intLit 5)

/-- The condition `t.b = 2`. -/
def condBEq2 : ExprNode := .BinaryOperationExpr .EQ (colRef "t" "b") (intLit 2)

/-- The condition `t.a LIKE ''`. -/
def condALikeEmpty : ExprNode :=
  .PatternLikeExpr (colRef "t" "a") (strLit "") false

/-- The condition `t.b LIKE ''`. -/
def condBLikeEmpty : ExprNode :=
  .PatternLikeExpr (colRef "t" "b") (strLit "") false

/-- A refiner with the active conditions `t.a = 1` and `t.b IN (2, 3)`. -/
def refinerA1B23 : refiner := { conditions := [condAEq1, condBIn23] }

/-- The condition `t.a BETWEEN 1 AND 2`, which the checker accepts for column
`a` and the sample range builder does not serve. -/
def condABetween : ExprNode :=
  .BetweenExpr (colRef "t" "a") (intLit 1) (intLit 2) false

/-- The Filter with the single condition `t.a BETWEEN 1 AND 2`. -/
def filterABetween : Filter := ⟨[condABetween]⟩

/-- The callbacks of a traversal of the tree
`N(Filter(IndexScan), Filter(IndexScan))` before `Leave` on the first scan,
whose Filter holds `t.a BETWEEN 1 AND 2`. -/
def visitsToFirstLeave : List Visit :=
  [.enter (.Other 0), .enter (.Filter filterABetween),
    .enter (.IndexScan scanAB)]

/-- The callbacks of that traversal after `Leave` on the first scan: the
second Filter holds `t.a = 1`, on which the range construction of the second
scan succeeds. -/
def visitsAfterFirstLeave : List Visit :=
  [.leave (.Filter filterABetween), .enter (.Filter ⟨[condAEq1]⟩),
    .enter (.IndexScan scanAB), .leave (.IndexScan scanAB),
    .leave (.Filter ⟨[condAEq1]⟩), .leave (.Other 0)]

/-- The scan of `idxAB` after the range construction on
`t.a BETWEEN 1 AND 2` with the sample range builder. -/
def scanABAfterBetween : IndexScan :=
  { scanAB with Ranges := [⟨[.null], false, [.null], false⟩] }

/-- The Filter with the single condition `t.a = 1`. -/
def filterA1 : Filter := ⟨[condAEq1]⟩

/-- The callbacks of a traversal of the tree `N(Filter(IndexScan), IndexScan)`,
up to and including `Enter` on the second scan: the Filter has been left. -/
def visitsToSecondScan : List Visit :=
  [.enter (.Other 0), .enter (.Filter filterA1), .enter (.IndexScan scanAB),
    .leave (.IndexScan scanAB), .leave (.Filter filterA1),
    .enter (.IndexScan scanAB)]

/-! ## Lemmas on the checker -/

theorem checkColumnExpr_eq_some_true (c : conditionChecker) (e : ExprNode) :
    checkColumnExpr c e = some true ↔ IsTargetColumn c e := by
  unfold IsTargetColumn
  constructor
  · intro h
    unfold checkColumnExpr at h
    split at h
    · rename_i cn
      split at h
      · simp at h
      · rename_i ht
        split at h
        · simp at h
        · rename_i col hcol
          split at h
          · simp at h
          · rename_i hn
            exact ⟨cn, col, rfl, hcol, by simpa using ht, by simpa using hn⟩
    · simp at h
  · rintro ⟨cn, col, rfl, hcol, ht, hn⟩
    simp [checkColumnExpr, hcol, ht, hn]

theorem checkColumnExpr_of_not_column (c : conditionChecker) (e : ExprNode)
    (h : ∀ cn, e ≠ .ColumnNameExpr cn) : checkColumnExpr c e = some false := by
  unfold checkColumnExpr
  split
  · rename_i cn
    exact absurd rfl (h cn)
  · rfl

theorem check_paren (a : Ast) (c : conditionChecker) (e : ExprNode) :
    check a c (.ParenthesesExpr e) = check a c e := by
  simp [check]

theorem not_column_of_preEvaluable (a : Ast)
    (hcol : ∀ cn, a.IsPreEvaluable (.ColumnNameExpr cn) = false) (e : ExprNode)
    (he : a.IsPreEvaluable e = true) : ∀ cn, e ≠ .ColumnNameExpr cn := by
  intro cn h
  rw [h, hcol cn] at he
  exact Bool.false_ne_true he

theorem not_preEvaluable_of_target (a : Ast)
    (hcol : ∀ cn, a.IsPreEvaluable (.ColumnNameExpr cn) = false)
    (c : conditionChecker) (e : ExprNode) (he : IsTargetColumn c e) :
    a.IsPreEvaluable e = false := by
  obtain ⟨cn, _, rfl, _⟩ := he
  exact hcol cn

theorem check_comparison (a : Ast) (c : conditionChecker) (op : Op)
    (L R : ExprNode) (hop : op ∈ [Op.EQ, Op.NE, Op.GE, Op.GT, Op.LE, Op.LT]) :
    check a c (.BinaryOperationExpr op L R) =
      if a.IsPreEvaluable L then checkColumnExpr c R
      else if a.IsPreEvaluable R then checkColumnExpr c L
      else some false := by
  simp only [List.mem_cons, List.mem_singleton, List.not_mem_nil, or_false] at hop
  rcases hop with h | h | h | h | h | h <;> subst h <;>
    simp only [check, checkBinaryOperation]

/-! ## Lemmas on the sort-bypass loop -/

theorem sortBypassLoop_cons_match (scan : IndexScan) (x : ByItem)
    (xs : List ByItem) (i : Nat) (desc : Bool) (h : KeyMatches scan i x) :
    sortBypassLoop scan (x :: xs) i desc =
      sortBypassLoop scan xs (i + 1) (x.Desc || desc) := by
  obtain ⟨cn, col, hx, hcol, ht, hn⟩ := h
  rw [sortBypassLoop]
  simp only [hx, hcol, ht, hn, bne_self_eq_false, Bool.false_eq_true, if_false]
  cases x.Desc <;> simp

theorem sortBypassLoop_cons_mismatch (scan : IndexScan) (x : ByItem)
    (xs : List ByItem) (i : Nat) (desc : Bool)
    (hi : i < scan.Index.Columns.length) (h : ¬ KeyMatches scan i x) :
    sortBypassLoop scan (x :: xs) i desc = .returned := by
  rw [sortBypassLoop]
  split
  · rename_i cn hx
    split
    · rfl
    · rename_i ht
      split
      · rename_i hcol
        rw [List.getElem?_eq_none_iff] at hcol
        omega
      · rename_i col hcol
        split
        · rfl
        · rename_i hn
          exact absurd ⟨cn, col, hx, hcol, by simpa using Eq.symm (by simpa using ht),
            by simpa using Eq.symm (by simpa using hn)⟩ h
  · rfl

theorem keysFrom_cons (scan : IndexScan) (x : ByItem) (xs : List ByItem)
    (i : Nat) :
    (∀ j item, (x :: xs)[j]? = some item → KeyMatches scan (i + j) item) ↔
      KeyMatches scan i x ∧
        ∀ j item, xs[j]? = some item → KeyMatches scan (i + 1 + j) item := by
  constructor
  · intro h
    refine ⟨by simpa using h 0 x (by simp), ?_⟩
    intro j item hj
    have := h (j + 1) item (by simpa using hj)
    rwa [show i + (j + 1) = i + 1 + j by omega] at this
  · rintro ⟨h0, hs⟩ j item hj
    cases j with
    | zero =>
      simp only [List.getElem?_cons_zero, Option.some.injEq] at hj
      subst hj
      simpa using h0
    | succ j =>
      have := hs j item (by simpa using hj)
      rwa [show i + 1 + j = i + (j + 1) by omega] at this

theorem sortBypassLoop_of_match (scan : IndexScan) :
    ∀ (items : List ByItem) (i : Nat) (desc : Bool),
      (∀ j item, items[j]? = some item → KeyMatches scan (i + j) item) →
      sortBypassLoop scan items i desc =
        .completed (desc || items.any fun item => item.Desc) := by
  intro items
  induction items with
  | nil => intro i desc _; simp [sortBypassLoop]
  | cons x xs ih =>
    intro i desc h
    rw [keysFrom_cons] at h
    rw [sortBypassLoop_cons_match scan x xs i desc h.1, ih (i + 1) _ h.2]
    simp only [List.any_cons]
    cases x.Desc <;> cases desc <;> simp

theorem sortBypassLoop_of_mismatch (scan : IndexScan) :
    ∀ (items : List ByItem) (i : Nat) (desc : Bool),
      i + items.length ≤ scan.Index.Columns.length →
      ¬ (∀ j item, items[j]? = some item → KeyMatches scan (i + j) item) →
      sortBypassLoop scan items i desc = .returned := by
  intro items
  induction items with
  | nil => intro i desc _ h; exact absurd (by simp) h
  | cons x xs ih =>
    intro i desc hlen h
    rw [keysFrom_cons] at h
    simp only [List.length_cons] at hlen
    by_cases hx : KeyMatches scan i x
    · rw [sortBypassLoop_cons_match scan x xs i desc hx]
      exact ih (i + 1) _ (by omega) (fun hs => h ⟨hx, hs⟩)
    · exact sortBypassLoop_cons_mismatch scan x xs i desc (by omega) hx

theorem allKeysMatch_iff_from_zero (scan : IndexScan) (items : List ByItem) :
    AllKeysMatch scan items ↔
      ∀ j item, items[j]? = some item → KeyMatches scan (0 + j) item := by
  unfold AllKeysMatch
  simp

/-! ## Sort bypass: theorems -/

/-- C1: for a Sort node whose Bypass flag is false before the call and every
refiner state, `sortBypass` returns, and afterwards the Bypass flag is true if
and only if there is an active index scan, the sort has no more keys than the
index has columns, every sort key at position `i` is a bare column reference
whose table name equals the table name of the index scan and whose column name
equals the name of the index column at position `i`, and no sort key is
descending. -/
theorem sortBypass_bypass_iff (r : refiner) (p : SortPlan)
    (hb : p.Bypass = false) :
    ∃ r1 p1, sortBypass r p = some (r1, p1) ∧
      (p1.Bypass = true ↔
        ∃ scan, r.indexScan = some scan ∧
          p.ByItems.length ≤ scan.Index.Columns.length ∧
          AllKeysMatch scan p.ByItems ∧
          ∀ item ∈ p.ByItems, item.Desc = false) := by
  unfold sortBypass
  cases hs : r.indexScan with
  | none => exact ⟨r, p, rfl, by simp [hb]⟩
  | some scan =>
    by_cases hlen : p.ByItems.length > scan.Index.Columns.length
    · refine ⟨r, p, by simp [hlen], ?_⟩
      simp only [hb, Bool.false_eq_true, Option.some.injEq, exists_eq_left',
        false_iff, not_and]
      intro h
      omega
    · by_cases hm : AllKeysMatch scan p.ByItems
      · have hloop := sortBypassLoop_of_match scan p.ByItems 0 false
          ((allKeysMatch_iff_from_zero scan p.ByItems).mp hm)
        cases hany : (p.ByItems.any fun item => item.Desc) with
        | true =>
          refine ⟨{ r with indexScan := some { scan with Desc := true } }, p,
            by simp [hlen, hloop, hany], ?_⟩
          simp only [hb, Bool.false_eq_true, Option.some.injEq,
            exists_eq_left', false_iff, not_and]
          intro _ _ hd
          rw [List.any_eq_true] at hany
          obtain ⟨item, hi, hd1⟩ := hany
          rw [hd item hi] at hd1
          exact Bool.false_ne_true hd1
        | false =>
          refine ⟨r, { p with Bypass := true }, by simp [hlen, hloop, hany], ?_⟩
          simp only [Option.some.injEq, exists_eq_left', true_iff]
          refine ⟨by omega, hm, ?_⟩
          intro item hi
          rw [List.any_eq_false] at hany
          simpa using hany item hi
      · have hloop := sortBypassLoop_of_mismatch scan p.ByItems 0 false
          (by omega)
          (fun h => hm ((allKeysMatch_iff_from_zero scan p.ByItems).mpr h))
        refine ⟨r, p, by simp [hlen, hloop], ?_⟩
        simp only [hb, Bool.false_eq_true, Option.some.injEq, exists_eq_left',
          false_iff, not_and]
        intro _ h
        exact absurd h hm

/-- Witness of C1: index `(a, b)`, sort keys `[a asc, b asc]`: the sort is
bypassed. -/
theorem sortBypass_bypass_iff_witness :
    sortAscAB.Bypass = false ∧
      (sortBypass refinerAB sortAscAB).map (fun x => x.2.Bypass) = some true ∧
      ∃ r1 p1, sortBypass refinerAB sortAscAB = some (r1, p1) ∧
        (p1.Bypass = true ↔
          ∃ scan, refinerAB.indexScan = some scan ∧
            sortAscAB.ByItems.length ≤ scan.Index.Columns.length ∧
            AllKeysMatch scan sortAscAB.ByItems ∧
            ∀ item ∈ sortAscAB.ByItems, item.Desc = false) :=
  ⟨rfl, by decide, sortBypass_bypass_iff refinerAB sortAscAB rfl⟩

/-- C2: for a Sort node and an active index scan such that the sort has no
more keys than the index has columns, every sort key matches the index column
at its position and at least one sort key is descending, `sortBypass` returns,
the Desc flag of the index scan is true afterwards, and the Bypass flag of the
Sort has its previous value; nothing else changes. -/
theorem sortBypass_descending (r : refiner) (p : SortPlan) (scan : IndexScan)
    (hs : r.indexScan = some scan)
    (hlen : p.ByItems.length ≤ scan.Index.Columns.length)
    (hm : AllKeysMatch scan p.ByItems)
    (hd : ∃ item ∈ p.ByItems, item.Desc = true) :
    ∃ r1 p1 scan1, sortBypass r p = some (r1, p1) ∧
      r1.indexScan = some scan1 ∧ scan1.Desc = true ∧
      p1.Bypass = p.Bypass ∧
      p1 = p ∧ scan1 = { scan with Desc := true } ∧
      r1 = { r with indexScan := some scan1 } := by
  have hloop := sortBypassLoop_of_match scan p.ByItems 0 false
    ((allKeysMatch_iff_from_zero scan p.ByItems).mp hm)
  have hany : (p.ByItems.any fun item => item.Desc) = true := by
    rw [List.any_eq_true]
    exact hd
  refine ⟨{ r with indexScan := some { scan with Desc := true } }, p,
    { scan with Desc := true }, ?_, rfl, rfl, rfl, rfl, rfl, rfl⟩
  unfold sortBypass
  simp [hs, Nat.not_lt.mpr hlen, hloop, hany]

/-- Witness of C2: index `(a, b)`, sort keys `[a desc]`: the scan is marked
descending and the sort is not bypassed. -/
theorem sortBypass_descending_witness :
    refinerAB.indexScan = some scanAB ∧
      sortDescA.ByItems.length ≤ scanAB.Index.Columns.length ∧
      AllKeysMatch scanAB sortDescA.ByItems ∧
      (∃ item ∈ sortDescA.ByItems, item.Desc = true) ∧
      (sortBypass refinerAB sortDescA).map
          (fun x => (x.1.indexScan.map fun s => s.Desc, x.2.Bypass)) =
        some (some true, false) ∧
      ∃ r1 p1 scan1, sortBypass refinerAB sortDescA = some (r1, p1) ∧
        r1.indexScan = some scan1 ∧ scan1.Desc = true ∧
        p1.Bypass = sortDescA.Bypass ∧
        p1 = sortDescA ∧ scan1 = { scanAB with Desc := true } ∧
        r1 = { refinerAB with indexScan := some scan1 } :=
  have hm : AllKeysMatch scanAB sortDescA.ByItems := by
    intro i item h
    cases i with
    | zero =>
      simp only [sortDescA, List.getElem?_cons_zero, Option.some.injEq] at h
      subst h
      exact ⟨_, _, rfl, rfl, rfl, rfl⟩
    | succ i => simp [sortDescA] at h
  have hd : ∃ item ∈ sortDescA.ByItems, item.Desc = true :=
    ⟨⟨colRef "t" "a", true⟩, by simp [sortDescA], rfl⟩
  ⟨rfl, by decide, hm, hd, by decide,
    sortBypass_descending refinerAB sortDescA scanAB rfl (by decide) hm hd⟩

/-- C3: `sortBypass` changes nothing when the keys do not all match: if there
is no active index scan, or the sort has more keys than the index has columns,
or some sort key is not a bare column reference to the table of the index scan
and to the index column at the same position, then `sortBypass` returns and
leaves the refiner (with the Desc flag of its index scan) and the Sort (with
its Bypass flag) as they were, whatever the descending flags of the keys. -/
theorem sortBypass_unchanged (r : refiner) (p : SortPlan)
    (h : r.indexScan = none ∨
      ∃ scan, r.indexScan = some scan ∧
        (scan.Index.Columns.length < p.ByItems.length ∨
          ∃ i item, p.ByItems[i]? = some item ∧ ¬ KeyMatches scan i item)) :
    sortBypass r p = some (r, p) := by
  unfold sortBypass
  rcases h with hs | ⟨scan, hs, h⟩
  · simp [hs]
  · by_cases hlen : p.ByItems.length > scan.Index.Columns.length
    · simp [hs, hlen]
    · rcases h with h | ⟨i, item, hi, hk⟩
      · omega
      · have hloop := sortBypassLoop_of_mismatch scan p.ByItems 0 false
          (by omega)
          (fun hall => hk (by simpa using hall i item hi))
        simp [hs, hlen, hloop]

/-- Witness of C3: index `(a, b)`, sort keys `[a desc, c asc]`: the second key
does not match, and neither flag changes although the first key is
descending. -/
theorem sortBypass_unchanged_witness :
    (refinerAB.indexScan = none ∨
      ∃ scan, refinerAB.indexScan = some scan ∧
        (scan.Index.Columns.length < sortDescAThenC.ByItems.length ∨
          ∃ i item, sortDescAThenC.ByItems[i]? = some item ∧
            ¬ KeyMatches scan i item)) ∧
      sortBypass refinerAB sortDescAThenC = some (refinerAB, sortDescAThenC) :=
  have h : refinerAB.indexScan = none ∨
      ∃ scan, refinerAB.indexScan = some scan ∧
        (scan.Index.Columns.length < sortDescAThenC.ByItems.length ∨
          ∃ i item, sortDescAThenC.ByItems[i]? = some item ∧
            ¬ KeyMatches scan i item) := by
    refine Or.inr ⟨scanAB, rfl, Or.inr ⟨1, ⟨colRef "t" "c", false⟩, rfl, ?_⟩⟩
    rintro ⟨cn, col, hx, hcol, _, hn⟩
    simp only [colRef, ExprNode.ColumnNameExpr.injEq] at hx
    subst hx
    simp only [scanAB, idxAB, List.getElem?_cons_succ, List.getElem?_cons_zero,
      Option.some.injEq] at hcol
    subst hcol
    revert hn
    decide
  ⟨h, sortBypass_unchanged refinerAB sortDescAThenC h⟩

/-! ## The condition checker: theorems -/

/-- C4: for a binary comparison `L op R` with `op` one of `=`, `!=`, `>=`, `>`,
`<=`, `<`, and an evaluation collaborator for which no bare column reference is
compile-time-evaluable (its value is not known without reading table data),
`check` returns true if and only if exactly one of `L` and `R` is
compile-time-evaluable and the other one is a bare reference to the target
column; and the verdict for `L op R` is the verdict for `R op L`. -/
theorem check_comparison_iff (a : Ast) (c : conditionChecker) (op : Op)
    (L R : ExprNode) (hop : op ∈ [Op.EQ, Op.NE, Op.GE, Op.GT, Op.LE, Op.LT])
    (hcol : ∀ cn, a.IsPreEvaluable (.ColumnNameExpr cn) = false) :
    (check a c (.BinaryOperationExpr op L R) = some true ↔
      (a.IsPreEvaluable L = true ∧ a.IsPreEvaluable R = false ∧
          IsTargetColumn c R) ∨
        (a.IsPreEvaluable R = true ∧ a.IsPreEvaluable L = false ∧
          IsTargetColumn c L)) ∧
      check a c (.BinaryOperationExpr op L R) =
        check a c (.BinaryOperationExpr op R L) := by
  rw [check_comparison a c op L R hop, check_comparison a c op R L hop]
  constructor
  · constructor
    · intro h
      by_cases hL : a.IsPreEvaluable L = true
      · rw [if_pos hL, checkColumnExpr_eq_some_true] at h
        exact Or.inl ⟨hL, not_preEvaluable_of_target a hcol c R h, h⟩
      · rw [if_neg hL] at h
        by_cases hR : a.IsPreEvaluable R = true
        · rw [if_pos hR, checkColumnExpr_eq_some_true] at h
          exact Or.inr ⟨hR, by simpa using hL, h⟩
        · rw [if_neg hR] at h
          simp at h
    · rintro (⟨hL, _, hR⟩ | ⟨hR, hL, hT⟩)
      · rw [if_pos hL, checkColumnExpr_eq_some_true]
        exact hR
      · rw [if_neg (by simp [hL]), if_pos hR, checkColumnExpr_eq_some_true]
        exact hT
  · by_cases hL : a.IsPreEvaluable L = true
    · by_cases hR : a.IsPreEvaluable R = true
      · rw [if_pos hL, if_pos hR,
          checkColumnExpr_of_not_column c R
            (not_column_of_preEvaluable a hcol R hR),
          checkColumnExpr_of_not_column c L
            (not_column_of_preEvaluable a hcol L hL)]
      · rw [if_pos hL, if_neg hR, if_pos hL]
    · by_cases hR : a.IsPreEvaluable R = true
      · rw [if_neg hL, if_pos hR, if_pos hR]
      · rw [if_neg hL, if_neg hR, if_neg hR, if_neg hL]

/-- Witness of C4: `t.a = 1` on the first column of the index `(a, b)`. -/
theorem check_comparison_iff_witness :
    (Op.EQ ∈ [Op.EQ, Op.NE, Op.GE, Op.GT, Op.LE, Op.LT]) ∧
      (∀ cn, literalAst.IsPreEvaluable (.ColumnNameExpr cn) = false) ∧
      ((check literalAst checkerA
            (.BinaryOperationExpr .EQ (colRef "t" "a") (intLit 1)) = some true ↔
          (literalAst.IsPreEvaluable (colRef "t" "a") = true ∧
              literalAst.IsPreEvaluable (intLit 1) = false ∧
              IsTargetColumn checkerA (intLit 1)) ∨
            (literalAst.IsPreEvaluable (intLit 1) = true ∧
              literalAst.IsPreEvaluable (colRef "t" "a") = false ∧
              IsTargetColumn checkerA (colRef "t" "a"))) ∧
        check literalAst checkerA
            (.BinaryOperationExpr .EQ (colRef "t" "a") (intLit 1)) =
          check literalAst checkerA
            (.BinaryOperationExpr .EQ (intLit 1) (colRef "t" "a"))) :=
  ⟨by decide, fun _ => rfl,
    check_comparison_iff literalAst checkerA .EQ (colRef "t" "a") (intLit 1)
      (by decide) (fun _ => rfl)⟩

/-- C5: for a LIKE condition whose pattern evaluates to a non-empty string,
`check` returns true if and only if the condition is not negated, its tested
expression is a bare reference to the target column, its pattern is
compile-time-evaluable, and the first character of the pattern is neither `%`
nor `.`; so a pattern that starts with `%`, such as `%ab`, is never
pushable. -/
theorem check_like_iff (a : Ast) (c : conditionChecker) (e pattern : ExprNode)
    (not : Bool) (patternStr : GoString)
    (hv : a.GetValue pattern = .string patternStr) (hne : patternStr ≠ []) :
    (check a c (.PatternLikeExpr e pattern not) = some true ↔
      not = false ∧ IsTargetColumn c e ∧ a.IsPreEvaluable pattern = true ∧
        ∃ firstChar, patternStr.head? = some firstChar ∧
          firstChar ≠ percent ∧ firstChar ≠ dot) ∧
      (patternStr.head? = some percent →
        check a c (.PatternLikeExpr e pattern not) ≠ some true) := by
  obtain ⟨b, rest, rfl⟩ := List.exists_cons_of_ne_nil hne
  have key : check a c (.PatternLikeExpr e pattern not) = some true ↔
      not = false ∧ IsTargetColumn c e ∧ a.IsPreEvaluable pattern = true ∧
        b ≠ percent ∧ b ≠ dot := by
    rw [← checkColumnExpr_eq_some_true]
    simp only [check, hv, firstByte, List.head?_cons]
    cases not <;> cases hc : checkColumnExpr c e with
    | none => simp
    | some v => cases v <;> cases hp : a.IsPreEvaluable pattern <;> simp
  constructor
  · rw [key]
    simp
  · intro hb h
    simp only [List.head?_cons, Option.some.injEq] at hb
    exact (key.mp h).2.2.2.1 hb

/-- Witness of C5: `t.a LIKE '%ab'` on the first column of the index
`(a, b)`. -/
theorem check_like_iff_witness :
    literalAst.GetValue (strLit "%ab") = .string (str "%ab") ∧ str "%ab" ≠ [] ∧
      check literalAst checkerA
        (.PatternLikeExpr (colRef "t" "a") (strLit "%ab") false) ≠ some true :=
  ⟨rfl, by decide,
    (check_like_iff literalAst checkerA (colRef "t" "a") (strLit "%ab") false
      (str "%ab") rfl (by decide)).2 (by decide)⟩

/-- C6: for a membership condition `x IN (v1..vn)`, `check` returns true if
and only if the condition has no subquery, is not negated, `x` is a bare
reference to the target column, and every list element is
compile-time-evaluable. -/
theorem check_in_iff (a : Ast) (c : conditionChecker) (e : ExprNode)
    (list : List ExprNode) (not : Bool) (sel : Option ExprNode) :
    check a c (.PatternInExpr e list not sel) = some true ↔
      sel = none ∧ not = false ∧ IsTargetColumn c e ∧
        ∀ v ∈ list, a.IsPreEvaluable v = true := by
  rw [← checkColumnExpr_eq_some_true]
  simp only [check]
  cases sel <;> cases not <;> cases hc : checkColumnExpr c e with
  | none => simp
  | some v => cases v <;> simp

/-- C7: `check` of `L AND R`, and likewise of `L OR R`, is true if and only if
`check L` and `check R` are both true for that same checker. -/
theorem check_and_or_iff (a : Ast) (c : conditionChecker) (L R : ExprNode) :
    (check a c (.BinaryOperationExpr .AndAnd L R) = some true ↔
      check a c L = some true ∧ check a c R = some true) ∧
      (check a c (.BinaryOperationExpr .OrOr L R) = some true ↔
        check a c L = some true ∧ check a c R = some true) := by
  simp only [check, checkBinaryOperation]
  cases hL : check a c L with
  | none => simp
  | some v => cases v <;> simp

/-- C8: for a range test `x BETWEEN lo AND hi`, `check` returns true if and
only if `lo` and `hi` are both compile-time-evaluable and `x` is a bare
reference to the target column. -/
theorem check_between_iff (a : Ast) (c : conditionChecker)
    (e left right : ExprNode) (not : Bool) :
    check a c (.BetweenExpr e left right not) = some true ↔
      a.IsPreEvaluable left = true ∧ a.IsPreEvaluable right = true ∧
        IsTargetColumn c e := by
  rw [← checkColumnExpr_eq_some_true]
  simp only [check]
  cases a.IsPreEvaluable left <;> cases a.IsPreEvaluable right <;>
    cases hc : checkColumnExpr c e with
    | none => simp
    | some v => cases v <;> simp

/-- C9: for a null test or a truth test on an expression `x`, and for a bare
column reference `x` used as a condition, `check` returns true if and only if
`x` is a bare reference to the target column. -/
theorem check_null_truth_column_iff (a : Ast) (c : conditionChecker)
    (x : ExprNode) (not : Bool) (truth : Int) (cn : ColumnNameExpr) :
    (check a c (.IsNullExpr x not) = some true ↔ IsTargetColumn c x) ∧
      (check a c (.IsTruthExpr x not truth) = some true ↔ IsTargetColumn c x) ∧
      (check a c (.ColumnNameExpr cn) = some true ↔
        IsTargetColumn c (.ColumnNameExpr cn)) := by
  rw [← checkColumnExpr_eq_some_true, ← checkColumnExpr_eq_some_true]
  refine ⟨?_, ?_, ?_⟩
  · simp only [check]
    cases hc : checkColumnExpr c x with
    | none => simp
    | some v => cases v <;> simp
  · simp only [check]
    cases hc : checkColumnExpr c x with
    | none => simp
    | some v => cases v <;> simp
  · rw [check]

/-- C10: for every expression `e` and checker whose names are well formed (the
`L` form of a name is its lower-cased `O` form), `checkColumnExpr e` is true if
and only if `e` is a bare column reference whose resolved table name equals the
checker's table name ignoring letter case and whose resolved column name
equals, ignoring letter case, the name of the index column at the checker's
column offset. -/
theorem checkColumnExpr_iff_ignoring_case (toLower : GoString → GoString)
    (c : conditionChecker) (e : ExprNode)
    (hc : c.tableName.WellFormed toLower)
    (hidx : ∀ col ∈ c.idx.Columns, col.Name.WellFormed toLower)
    (he : ∀ cn, e = .ColumnNameExpr cn →
      cn.Refer.Table.Name.WellFormed toLower ∧
        cn.Refer.Column.Name.WellFormed toLower) :
    checkColumnExpr c e = some true ↔
      ∃ cn col, e = .ColumnNameExpr cn ∧
        indexAt c.idx.Columns c.columnOffset = some col ∧
        EqualIgnoringCase toLower cn.Refer.Table.Name.O c.tableName.O ∧
        EqualIgnoringCase toLower cn.Refer.Column.Name.O col.Name.O := by
  rw [checkColumnExpr_eq_some_true]
  unfold IsTargetColumn EqualIgnoringCase
  unfold CIStr.WellFormed at hc hidx he
  have hmem : ∀ col, indexAt c.idx.Columns c.columnOffset = some col →
      col ∈ c.idx.Columns := by
    intro col h
    unfold indexAt at h
    split at h
    · simp at h
    · exact List.getElem?_mem h
  constructor
  · rintro ⟨cn, col, rfl, hcol, ht, hn⟩
    obtain ⟨h1, h2⟩ := he cn rfl
    refine ⟨cn, col, rfl, hcol, ?_, ?_⟩
    · rw [← h1, ← hc, ht]
    · rw [← h2, ← hidx col (hmem col hcol), hn]
  · rintro ⟨cn, col, rfl, hcol, ht, hn⟩
    obtain ⟨h1, h2⟩ := he cn rfl
    refine ⟨cn, col, rfl, hcol, ?_, ?_⟩
    · rw [h1, hc, ht]
    · rw [h2, hidx col (hmem col hcol), hn]

/-- Witness of C10: the reference `T.A` against the checker for column `a` of
table `t`. -/
theorem checkColumnExpr_iff_ignoring_case_witness :
    checkerA.tableName.WellFormed asciiLower ∧
      (∀ col ∈ checkerA.idx.Columns, col.Name.WellFormed asciiLower) ∧
      (∀ cn, colRef "T" "A" = .ColumnNameExpr cn →
        cn.Refer.Table.Name.WellFormed asciiLower ∧
          cn.Refer.Column.Name.WellFormed asciiLower) ∧
      checkColumnExpr checkerA (colRef "T" "A") = some true ∧
      (checkColumnExpr checkerA (colRef "T" "A") = some true ↔
        ∃ cn col, colRef "T" "A" = .ColumnNameExpr cn ∧
          indexAt checkerA.idx.Columns checkerA.columnOffset = some col ∧
          EqualIgnoringCase asciiLower cn.Refer.Table.Name.O
            checkerA.tableName.O ∧
          EqualIgnoringCase asciiLower cn.Refer.Column.Name.O col.Name.O) :=
  have h1 : checkerA.tableName.WellFormed asciiLower := rfl
  have h2 : ∀ col ∈ checkerA.idx.Columns, col.Name.WellFormed asciiLower := by
    intro col h
    simp only [checkerA, idxAB, List.mem_cons, List.mem_singleton,
      List.not_mem_nil, or_false] at h
    rcases h with rfl | rfl <;> rfl
  have h3 : ∀ cn, colRef "T" "A" = .ColumnNameExpr cn →
      cn.Refer.Table.Name.WellFormed asciiLower ∧
        cn.Refer.Column.Name.WellFormed asciiLower := by
    intro cn h
    simp only [colRef, ExprNode.ColumnNameExpr.injEq] at h
    subst h
    exact ⟨rfl, rfl⟩
  ⟨h1, h2, h3, by decide,
    checkColumnExpr_iff_ignoring_case asciiLower checkerA (colRef "T" "A")
      h1 h2 h3⟩

/-! ## Lemmas on index range construction -/

theorem conditionLoop_rejected (a : Ast) (ops : RangeBuilderOps)
    (checker : conditionChecker) :
    ∀ (conditions : List ExprNode) (rb : rangeBuilder)
      (rangePoints : List rangePoint) (columnUsed : Bool),
      (∀ cond ∈ conditions, check a checker cond = some false) →
      conditionLoop a ops checker conditions rb rangePoints columnUsed =
        some (rb, rangePoints, columnUsed) := by
  intro conditions
  induction conditions with
  | nil => intro rb rangePoints columnUsed _; rfl
  | cons cond rest ih =>
    intro rb rangePoints columnUsed h
    rw [conditionLoop, h cond (by simp)]
    exact ih rb rangePoints columnUsed fun c hc => h c (by simp [hc])

theorem conditionLoop_congr (a : Ast) (ops : RangeBuilderOps)
    (c1 c2 : conditionChecker) (h : ∀ e, check a c1 e = check a c2 e) :
    ∀ (conditions : List ExprNode) (rb : rangeBuilder)
      (rangePoints : List rangePoint) (columnUsed : Bool),
      conditionLoop a ops c1 conditions rb rangePoints columnUsed =
        conditionLoop a ops c2 conditions rb rangePoints columnUsed := by
  intro conditions
  induction conditions with
  | nil => intro rb rangePoints columnUsed; rfl
  | cons cond rest ih =>
    intro rb rangePoints columnUsed
    rw [conditionLoop, conditionLoop, h cond]
    cases check a c2 cond with
    | none => rfl
    | some v => cases v <;> simp only [ih]

theorem columnChecker_congr (p q : IndexScan) (i : Nat)
    (hi : q.Index = p.Index) (ht : q.Table = p.Table) :
    columnChecker q i = columnChecker p i := by
  simp [columnChecker, hi, ht]

theorem check_congr (a : Ast) (c1 c2 : conditionChecker)
    (h : ∀ e, checkColumnExpr c1 e = checkColumnExpr c2 e) :
    ∀ e, check a c1 e = check a c2 e
  | .BinaryOperationExpr op l r => by
    simp only [check, checkBinaryOperation, h, check_congr a c1 c2 h l,
      check_congr a c1 c2 h r]
  | .ParenthesesExpr e => by
    simp only [check, check_congr a c1 c2 h e]
  | .PatternInExpr e list not sel => by simp only [check, h]
  | .PatternLikeExpr e pattern not => by simp only [check, h]
  | .BetweenExpr e left right not => by simp only [check, h]
  | .IsNullExpr e not => by simp only [check, h]
  | .IsTruthExpr e not truth => by simp only [check, h]
  | .ColumnNameExpr cn => by simp only [check, h]
  | .ValueExpr v => by simp only [check]
  | .Other kind => by simp only [check]

theorem indexAt_take {α : Type} (xs : List α) (i k : Nat) (hik : i < k) :
    indexAt (xs.take k) (i : Int) = indexAt xs (i : Int) := by
  unfold indexAt
  simp only [Int.toNat_ofNat]
  split
  · rfl
  · rw [List.getElem?_take]
    simp [hik]

theorem check_truncated (a : Ast) (table : CIStr) (idx : IndexInfo)
    (i k : Nat) (hik : i < k) (e : ExprNode) :
    check a ⟨table, ⟨idx.Columns.take k⟩, i⟩ e = check a ⟨table, idx, i⟩ e := by
  apply check_congr
  intro e
  unfold checkColumnExpr
  simp only [indexAt_take idx.Columns i k hik]

theorem columnLoop_truncated (a : Ast) (ops : RangeBuilderOps)
    (conditions : List ExprNode) (p : IndexScan) (k : Nat)
    (hk : k < p.Index.Columns.length)
    (hno : ∀ cond ∈ conditions, check a (columnChecker p k) cond = some false) :
    ∀ (m i : Nat) (rb : rangeBuilder) (q : IndexScan), i + m = k →
      q.Index = p.Index → q.Table = p.Table →
      columnLoop a ops conditions (p.Index.Columns.length - i) i rb q =
        (columnLoop a ops conditions m i rb (truncateIndex q k)).map
          (withIndexOf p) := by
  intro m
  induction m with
  | zero =>
    intro i rb q him hi ht
    have hik : i = k := by omega
    subst hik
    obtain ⟨n, hn⟩ : ∃ n, p.Index.Columns.length - i = n + 1 :=
      ⟨p.Index.Columns.length - i - 1, by omega⟩
    have hL : columnLoop a ops conditions (n + 1) i rb q = some (rb, q) := by
      rw [columnLoop, columnChecker_congr p q i hi ht,
        conditionLoop_rejected a ops (columnChecker p i) conditions rb
          fullRange false hno]
    have hR : columnLoop a ops conditions 0 i rb (truncateIndex q i) =
        some (rb, truncateIndex q i) := by
      rw [columnLoop]
    rw [hn, hL, hR]
    simp only [Option.map_some', withIndexOf, truncateIndex]
    rw [← hi]
  | succ m ih =>
    intro i rb q him hi ht
    obtain ⟨n, hn⟩ : ∃ n, p.Index.Columns.length - i = n + 1 :=
      ⟨p.Index.Columns.length - i - 1, by omega⟩
    have hn1 : n = p.Index.Columns.length - (i + 1) := by omega
    have hcheck : ∀ e, check a (columnChecker (truncateIndex q k) i) e =
        check a (columnChecker q i) e := by
      intro e
      exact check_truncated a q.Table.Name q.Index i k (by omega) e
    rw [hn, columnLoop, columnLoop,
      conditionLoop_congr a ops _ _ hcheck conditions rb fullRange false]
    cases hloop : conditionLoop a ops (columnChecker q i) conditions rb
        fullRange false with
    | none => rfl
    | some out =>
      obtain ⟨rb1, rangePoints, used⟩ := out
      cases used with
      | false =>
        simp only [Option.map_some', withIndexOf, truncateIndex]
        rw [← hi]
      | true =>
        by_cases h0 : i = 0
        · simp only [h0, if_true]
          simp only [h0] at hn1
          rw [hn1]
          exact ih 1 _ _ (by omega) hi ht
        · simp only [h0, if_false]
          rw [hn1]
          exact ih (i + 1) _ _ (by omega) hi ht

theorem conditionLoop_eq_fold (a : Ast) (ops : RangeBuilderOps)
    (checker : conditionChecker) :
    ∀ (conditions : List ExprNode) (rb : rangeBuilder)
      (rangePoints : List rangePoint) (columnUsed : Bool),
      (∀ cond ∈ conditions, check a checker cond ≠ none) →
      conditionLoop a ops checker conditions rb rangePoints columnUsed =
        some (((passing a checker conditions).foldl (pointsStep ops)
            (rb, rangePoints)).1,
          ((passing a checker conditions).foldl (pointsStep ops)
            (rb, rangePoints)).2,
          columnUsed || !(passing a checker conditions).isEmpty) := by
  intro conditions
  induction conditions with
  | nil => intro rb rangePoints columnUsed _; simp [conditionLoop, passing]
  | cons cond rest ih =>
    intro rb rangePoints columnUsed h
    have hrest : ∀ c ∈ rest, check a checker c ≠ none :=
      fun c hc => h c (by simp [hc])
    rw [conditionLoop]
    cases hc : check a checker cond with
    | none => exact absurd hc (h cond (by simp))
    | some v =>
      cases v with
      | true =>
        simp only []
        rw [ih _ _ true hrest]
        simp [passing, hc, pointsStep]
      | false =>
        simp only []
        rw [ih _ _ columnUsed hrest]
        simp [passing, hc]

theorem passing_ne_nil (a : Ast) (checker : conditionChecker)
    (conditions : List ExprNode)
    (h : ∃ cond ∈ conditions, check a checker cond = some true) :
    (passing a checker conditions).isEmpty = false := by
  obtain ⟨cond, hc, hp⟩ := h
  have hm : cond ∈ passing a checker conditions := by
    simp [passing, hc, hp]
  cases hl : passing a checker conditions with
  | nil => rw [hl] at hm; simp at hm
  | cons x xs => rfl

theorem columnLoop_eq_rangesUpTo (a : Ast) (ops : RangeBuilderOps)
    (conditions : List ExprNode) (p : IndexScan) (k : Nat)
    (hk : k ≤ p.Index.Columns.length)
    (hverdict : ∀ i, i < k → ∀ cond ∈ conditions,
      check a (columnChecker p i) cond ≠ none)
    (hused : ∀ i, i < k → ∃ cond ∈ conditions,
      check a (columnChecker p i) cond = some true)
    (hstop : k < p.Index.Columns.length → ∀ cond ∈ conditions,
      check a (columnChecker p k) cond = some false) :
    ∀ (m i : Nat), i + m = k →
      columnLoop a ops conditions (p.Index.Columns.length - i) i
          (rangesUpTo a ops conditions p i).1
          { p with Ranges := (rangesUpTo a ops conditions p i).2 } =
        some ((rangesUpTo a ops conditions p k).1,
          { p with Ranges := (rangesUpTo a ops conditions p k).2 }) := by
  intro m
  induction m with
  | zero =>
    intro i him
    have hik : i = k := by omega
    subst hik
    cases hn : p.Index.Columns.length - i with
    | zero => rw [columnLoop]
    | succ n =>
      have hchk : columnChecker
          { p with Ranges := (rangesUpTo a ops conditions p i).2 } i =
          columnChecker p i := rfl
      rw [columnLoop, hchk,
        conditionLoop_rejected a ops (columnChecker p i) conditions _ fullRange
          false (hstop (by omega))]
  | succ m ih =>
    intro i him
    obtain ⟨n, hn⟩ : ∃ n, p.Index.Columns.length - i = n + 1 :=
      ⟨p.Index.Columns.length - i - 1, by omega⟩
    have hn1 : n = p.Index.Columns.length - (i + 1) := by omega
    have hchk : columnChecker
        { p with Ranges := (rangesUpTo a ops conditions p i).2 } i =
        columnChecker p i := rfl
    have hnext := ih (i + 1) (by omega)
    rw [hn, columnLoop, hchk,
      conditionLoop_eq_fold a ops (columnChecker p i) conditions _ fullRange
        false (hverdict i (by omega)),
      passing_ne_nil a (columnChecker p i) conditions (hused i (by omega))]
    simp only [Bool.not_false, Bool.or_true]
    rw [← hnext, hn1]
    by_cases h0 : i = 0
    · simp only [h0, if_true, rangesUpTo, columnPoints]
    · simp only [h0, if_false, rangesUpTo, columnPoints]

theorem columnLoop_frame (a : Ast) (ops : RangeBuilderOps)
    (conditions : List ExprNode) :
    ∀ (n i : Nat) (rb : rangeBuilder) (p : IndexScan) (rb1 : rangeBuilder)
      (p1 : IndexScan),
      columnLoop a ops conditions n i rb p = some (rb1, p1) →
      p1.Index = p.Index ∧ p1.Table = p.Table ∧ p1.Desc = p.Desc := by
  intro n
  induction n with
  | zero =>
    intro i rb p rb1 p1 h
    rw [columnLoop] at h
    simp only [Option.some.injEq, Prod.mk.injEq] at h
    rw [← h.2]
    exact ⟨rfl, rfl, rfl⟩
  | succ n ih =>
    intro i rb p rb1 p1 h
    rw [columnLoop] at h
    cases hloop : conditionLoop a ops (columnChecker p i) conditions rb
        fullRange false with
    | none => rw [hloop] at h; simp at h
    | some out =>
      obtain ⟨rb2, rangePoints, used⟩ := out
      rw [hloop] at h
      cases used with
      | false =>
        simp only [Option.some.injEq, Prod.mk.injEq] at h
        rw [← h.2]
        exact ⟨rfl, rfl, rfl⟩
      | true =>
        by_cases h0 : i = 0
        · simp only [h0, if_true] at h
          have h2 := ih _ _ _ _ _ h
          exact h2
        · simp only [h0, if_false] at h
          have h2 := ih _ _ _ _ _ h
          exact h2

theorem columnLoop_again (a : Ast) (ops : RangeBuilderOps)
    (conditions : List ExprNode) (p : IndexScan) (rb1 : rangeBuilder)
    (p1 : IndexScan)
    (h : columnLoop a ops conditions p.Index.Columns.length 0 {} p =
      some (rb1, p1)) :
    columnLoop a ops conditions p1.Index.Columns.length 0 {} p1 =
      some (rb1, p1) := by
  obtain ⟨hi, ht, hd⟩ := columnLoop_frame a ops conditions _ _ _ _ _ _ h
  rw [hi]
  cases hn : p.Index.Columns.length with
  | zero =>
    rw [hn, columnLoop] at h
    simp only [Option.some.injEq, Prod.mk.injEq] at h
    rw [columnLoop, ← h.1]
  | succ n =>
    rw [hn, columnLoop] at h
    rw [columnLoop, columnChecker_congr p p1 0 hi ht]
    cases hloop : conditionLoop a ops (columnChecker p 0) conditions {}
        fullRange false with
    | none => rw [hloop] at h; simp at h
    | some out =>
      obtain ⟨rb2, rangePoints, used⟩ := out
      rw [hloop] at h
      cases used with
      | false =>
        simp only [Option.some.injEq, Prod.mk.injEq] at h
        simp only [← h.1, ← h.2]
      | true =>
        simp only [if_true] at h ⊢
        have hp : ({ p1 with Ranges := (ops.buildIndexRanges rb2 rangePoints).2 } :
            IndexScan) =
            { p with Ranges := (ops.buildIndexRanges rb2 rangePoints).2 } := by
          cases p
          cases p1
          simp only at hi ht hd
          simp [hi, ht, hd]
        rw [hp]
        exact h

theorem sortBypassLoop_congr (scan1 scan2 : IndexScan)
    (hi : scan1.Index = scan2.Index) (ht : scan1.Table = scan2.Table) :
    ∀ (items : List ByItem) (i : Nat) (desc : Bool),
      sortBypassLoop scan1 items i desc = sortBypassLoop scan2 items i desc := by
  intro items
  induction items with
  | nil => intro i desc; rfl
  | cons x xs ih =>
    intro i desc
    rw [sortBypassLoop, sortBypassLoop]
    simp only [hi, ht, ih]

theorem sortBypassLoop_ne_panicked (scan : IndexScan) :
    ∀ (items : List ByItem) (i : Nat) (desc : Bool),
      i + items.length ≤ scan.Index.Columns.length →
      sortBypassLoop scan items i desc ≠ .panicked := by
  intro items
  induction items with
  | nil => intro i desc _; simp [sortBypassLoop]
  | cons x xs ih =>
    intro i desc hlen
    simp only [List.length_cons] at hlen
    by_cases hx : KeyMatches scan i x
    · rw [sortBypassLoop_cons_match scan x xs i desc hx]
      exact ih (i + 1) _ (by omega)
    · rw [sortBypassLoop_cons_mismatch scan x xs i desc (by omega) hx]
      simp

theorem sortBypass_cases (r : refiner) (p : SortPlan) :
    sortBypass r p = some (r, p) ∨
      (∃ scan, r.indexScan = some scan ∧
        sortBypass r p =
          some ({ r with indexScan := some { scan with Desc := true } }, p)) ∨
      sortBypass r p = some (r, { p with Bypass := true }) := by
  unfold sortBypass
  cases hs : r.indexScan with
  | none => exact Or.inl rfl
  | some scan =>
    by_cases hlen : p.ByItems.length > scan.Index.Columns.length
    · exact Or.inl (by simp [hlen])
    · simp only [hlen, if_false]
      cases hloop : sortBypassLoop scan p.ByItems 0 false with
      | panicked =>
        exact absurd hloop
          (sortBypassLoop_ne_panicked scan p.ByItems 0 false (by omega))
      | returned => exact Or.inl rfl
      | completed desc =>
        cases desc with
        | true => exact Or.inr (Or.inl ⟨scan, rfl, rfl⟩)
        | false => exact Or.inr (Or.inr rfl)

theorem sortBypass_keeps (r : refiner) (p : SortPlan) :
    ∃ out, sortBypass r p = some out ∧ out.1.err = r.err ∧
      out.1.conditions = r.conditions := by
  rcases sortBypass_cases r p with h | ⟨scan, _, h⟩ | h
  · exact ⟨_, h, rfl, rfl⟩
  · exact ⟨_, h, rfl, rfl⟩
  · exact ⟨_, h, rfl, rfl⟩

theorem buildIndexRange_conditions (a : Ast) (ops : RangeBuilderOps)
    (r : refiner) (p : IndexScan) (out : refiner × IndexScan)
    (h : buildIndexRange a ops r p = some out) :
    out.1.conditions = r.conditions := by
  unfold buildIndexRange at h
  cases hl : columnLoop a ops r.conditions p.Index.Columns.length 0 {} p with
  | none => rw [hl] at h; simp at h
  | some res =>
    rw [hl] at h
    simp only [Option.some.injEq] at h
    rw [← h]

theorem Leave_conditions (env : Env) (r : refiner) (node : Plan)
    (out : refiner × Plan × Bool) (h : Leave env r node = some out) :
    out.1.conditions = r.conditions := by
  rcases node with x | x | x | x | kind
  · simp only [Leave, Option.some.injEq] at h
    rw [← h]
  · simp only [Leave] at h
    cases hb : buildIndexRange env.ast env.ops r x with
    | none => rw [hb] at h; simp at h
    | some res =>
      rw [hb] at h
      simp only [Option.some.injEq] at h
      rw [← h]
      exact buildIndexRange_conditions env.ast env.ops r x res hb
  · simp only [Leave] at h
    obtain ⟨res, hs, _, hc⟩ := sortBypass_keeps r x
    rw [hs] at h
    simp only [Option.some.injEq] at h
    rw [← h]
    exact hc
  · simp only [Leave, Option.some.injEq] at h
    rw [← h]
  · simp only [Leave, Option.some.injEq] at h
    rw [← h]

theorem runVisits_conditions (env : Env) :
    ∀ (visits : List Visit) (r r1 : refiner),
      runVisits env r visits = some r1 →
      r1.conditions = activeAfter r.conditions visits := by
  intro visits
  induction visits with
  | nil =>
    intro r r1 h
    simp only [runVisits, Option.some.injEq] at h
    rw [← h, activeAfter]
  | cons v rest ih =>
    intro r r1 h
    cases v with
    | enter node =>
      rw [runVisits] at h
      have h2 := ih _ _ h
      rcases node with x | x | x | x | kind <;> simpa [activeAfter, Enter] using h2
    | leave node =>
      rw [runVisits] at h
      cases hl : Leave env r node with
      | none => rw [hl] at h; simp at h
      | some out =>
        rw [hl] at h
        have h2 := ih _ _ h
        rw [Leave_conditions env r node out hl] at h2
        simpa [activeAfter] using h2

theorem conditionLoop_none (a : Ast) (ops : RangeBuilderOps)
    (checker : conditionChecker) :
    ∀ (conditions : List ExprNode) (rb : rangeBuilder)
      (rangePoints : List rangePoint) (columnUsed : Bool),
      conditionLoop a ops checker conditions rb rangePoints columnUsed = none →
      ∃ cond ∈ conditions, check a checker cond = none := by
  intro conditions
  induction conditions with
  | nil => intro rb rangePoints columnUsed h; simp [conditionLoop] at h
  | cons cond rest ih =>
    intro rb rangePoints columnUsed h
    rw [conditionLoop] at h
    cases hc : check a checker cond with
    | none => exact ⟨cond, by simp, hc⟩
    | some v =>
      rw [hc] at h
      cases v with
      | true =>
        obtain ⟨c, hm, hn⟩ := ih _ _ _ h
        exact ⟨c, by simp [hm], hn⟩
      | false =>
        obtain ⟨c, hm, hn⟩ := ih _ _ _ h
        exact ⟨c, by simp [hm], hn⟩

theorem columnLoop_none (a : Ast) (ops : RangeBuilderOps)
    (conditions : List ExprNode) (p : IndexScan) :
    ∀ (n i : Nat) (rb : rangeBuilder) (q : IndexScan),
      q.Index = p.Index → q.Table = p.Table →
      columnLoop a ops conditions n i rb q = none →
      ∃ j, i ≤ j ∧ j < i + n ∧
        ∃ cond ∈ conditions, check a (columnChecker p j) cond = none := by
  intro n
  induction n with
  | zero => intro i rb q _ _ h; simp [columnLoop] at h
  | succ n ih =>
    intro i rb q hi ht h
    rw [columnLoop, columnChecker_congr p q i hi ht] at h
    cases hloop : conditionLoop a ops (columnChecker p i) conditions rb
        fullRange false with
    | none =>
      obtain ⟨cond, hm, hn⟩ := conditionLoop_none a ops _ _ _ _ _ hloop
      exact ⟨i, by omega, by omega, cond, hm, hn⟩
    | some out =>
      obtain ⟨rb2, rangePoints, used⟩ := out
      rw [hloop] at h
      cases used with
      | false => simp at h
      | true =>
        by_cases h0 : i = 0
        · simp only [h0, if_true] at h
          obtain ⟨j, h1, h2, hc⟩ := ih _ _ _ (by exact hi) (by exact ht) h
          exact ⟨j, by omega, by omega, hc⟩
        · simp only [h0, if_false] at h
          obtain ⟨j, h1, h2, hc⟩ := ih _ _ _ (by exact hi) (by exact ht) h
          exact ⟨j, by omega, by omega, hc⟩

theorem Leave_flag (env : Env) (r : refiner) (node : Plan)
    (out : refiner × Plan × Bool) (h : Leave env r node = some out) :
    out.2.2 = out.1.err.isNone := by
  rcases node with x | x | x | x | kind
  · simp only [Leave, Option.some.injEq] at h
    rw [← h]
  · simp only [Leave] at h
    cases hb : buildIndexRange env.ast env.ops r x with
    | none => rw [hb] at h; simp at h
    | some res =>
      rw [hb] at h
      simp only [Option.some.injEq] at h
      rw [← h]
  · simp only [Leave] at h
    cases hb : sortBypass r x with
    | none => rw [hb] at h; simp at h
    | some res =>
      rw [hb] at h
      simp only [Option.some.injEq] at h
      rw [← h]
  · simp only [Leave, Option.some.injEq] at h
    rw [← h]
  · simp only [Leave, Option.some.injEq] at h
    rw [← h]

theorem Enter_err (r : refiner) (node : Plan) :
    (Enter r node).1.err = r.err := by
  rcases node with x | x | x | x | kind <;> rfl

theorem walkVisits_err (env : Env) :
    ∀ (visits : List Visit) (r : refiner) (out : refiner × Bool),
      r.err = none → walkVisits env r visits = some out →
      (out.2 = true → out.1.err = none) ∧
        (out.2 = false → ∃ e, out.1.err = some e) := by
  intro visits
  induction visits with
  | nil =>
    intro r out hr h
    simp only [walkVisits, Option.some.injEq] at h
    rw [← h]
    exact ⟨fun _ => hr, fun hf => absurd hf (by simp)⟩
  | cons v rest ih =>
    intro r out hr h
    cases v with
    | enter node =>
      rw [walkVisits] at h
      exact ih _ out (by rw [Enter_err, hr]) h
    | leave node =>
      rw [walkVisits] at h
      cases hl : Leave env r node with
      | none => rw [hl] at h; simp at h
      | some res =>
        rw [hl] at h
        have hflag := Leave_flag env r node res hl
        cases hres : res.2.2 with
        | true =>
          simp only [hres, if_true] at h
          rw [hres] at hflag
          exact ih _ out (by simpa using hflag.symm) h
        | false =>
          simp only [hres, Bool.false_eq_true, if_false,
            Option.some.injEq] at h
          rw [hres] at hflag
          rw [← h]
          refine ⟨fun hf => absurd hf (by simp), fun _ => ?_⟩
          cases herr : res.1.err with
          | none => rw [herr] at hflag; simp at hflag
          | some e => exact ⟨e, rfl⟩

theorem walkVisits_append_going (env : Env) :
    ∀ (pre post : List Visit) (r r1 : refiner),
      walkVisits env r pre = some (r1, true) →
      walkVisits env r (pre ++ post) = walkVisits env r1 post := by
  intro pre
  induction pre with
  | nil =>
    intro post r r1 h
    simp only [walkVisits, Option.some.injEq, Prod.mk.injEq, and_true] at h
    rw [List.nil_append, h]
  | cons v rest ih =>
    intro post r r1 h
    cases v with
    | enter node =>
      rw [walkVisits] at h
      rw [List.cons_append, walkVisits]
      exact ih post _ r1 h
    | leave node =>
      rw [walkVisits] at h
      rw [List.cons_append, walkVisits]
      cases hl : Leave env r node with
      | none => rw [hl] at h; simp at h
      | some res =>
        rw [hl] at h
        cases hres : res.2.2 with
        | true =>
          simp only [hres, if_true] at h ⊢
          exact ih post _ r1 h
        | false => simp [hres] at h

/-! ## Index range construction and the checker: further theorems -/

/-- C12: for an index `(a, b)` (and an index of any other length) and every
active condition list in which no condition is pushable to the first column,
the checker rejecting each of them there, `buildIndexRange` does no pushdown at
all: whatever the range builder is, also one that records each call in `err`,
the call returns with the scan as it was, its Ranges included, and with no
error in `err`. -/
theorem buildIndexRange_no_pushdown (a : Ast) (ops : RangeBuilderOps)
    (r : refiner) (p : IndexScan)
    (hno : ∀ cond ∈ r.conditions,
      check a (columnChecker p 0) cond = some false) :
    buildIndexRange a ops r p = some ({ r with err := none }, p) := by
  unfold buildIndexRange
  cases hlen : p.Index.Columns.length with
  | zero => rfl
  | succ n =>
    rw [columnLoop, conditionLoop_rejected a ops (columnChecker p 0)
      r.conditions {} fullRange false hno]

/-- Witness of C12: index `(a, b)` with the single condition `t.b = 2`, and a
range builder that records every call. -/
theorem buildIndexRange_no_pushdown_witness :
    (∀ cond ∈ ({ conditions := [condBEq2] } : refiner).conditions,
        check literalAst (columnChecker scanAB 0) cond = some false) ∧
      scanAB.Index.Columns.length = 2 ∧
      buildIndexRange literalAst alarmOps { conditions := [condBEq2] } scanAB =
        some ({ conditions := [condBEq2], err := none }, scanAB) :=
  have h : ∀ cond ∈ ({ conditions := [condBEq2] } : refiner).conditions,
      check literalAst (columnChecker scanAB 0) cond = some false := by
    intro cond hc
    simp only [List.mem_singleton] at hc
    subst hc
    decide
  ⟨h, rfl,
    buildIndexRange_no_pushdown literalAst alarmOps { conditions := [condBEq2] }
      scanAB h⟩

/-- C14: the code at the failing input. For the non-negated condition
`t.a LIKE ''` on the target column `a`, with a compile-time-evaluable pattern
whose value is the empty string, `check` does not complete with a verdict: it
stops with the out-of-range access `patternStr[0]`, and so does
`buildIndexRange`, which records nothing in `err`. -/
theorem check_like_empty_pattern_panics :
    literalAst.IsPreEvaluable (strLit "") = true ∧
      literalAst.GetValue (strLit "") = .string [] ∧
      checkColumnExpr checkerA (colRef "t" "a") = some true ∧
      check literalAst checkerA condALikeEmpty = none ∧
      buildIndexRange literalAst sampleOps { conditions := [condALikeEmpty] }
        scanAB = none := by
  refine ⟨rfl, rfl, by decide, by decide, ?_⟩
  rfl

/-- C18: for a Sort node with an empty list of sort keys and a refiner with an
active index scan, whatever its index and table, `sortBypass` returns with the
Bypass flag of the Sort true and with the refiner, the Desc flag of its index
scan included, as it was. -/
theorem sortBypass_no_keys (r : refiner) (p : SortPlan) (scan : IndexScan)
    (hs : r.indexScan = some scan) (hp : p.ByItems = []) :
    sortBypass r p = some (r, { p with Bypass := true }) := by
  unfold sortBypass
  simp [hs, hp, sortBypassLoop]

/-- Witness of C18: the sort without keys over a scan of the index
`(a, b)`. -/
theorem sortBypass_no_keys_witness :
    refinerAB.indexScan = some scanAB ∧
      ({ ByItems := [] } : SortPlan).ByItems = [] ∧
      sortBypass refinerAB { ByItems := [] } =
        some (refinerAB, { ByItems := [], Bypass := true }) :=
  ⟨rfl, rfl, sortBypass_no_keys refinerAB { ByItems := [] } scanAB rfl rfl⟩

/-- C19: the verdict of the checker on a BETWEEN, a null test or a truth test
does not depend on the negation flag of the node, nor, for a truth test, on the
truth value tested: two such nodes with the same tested expression and, for
BETWEEN, the same bounds receive the same result of `check`; so the negated
forms are judged pushable exactly when the plain forms are. -/
theorem check_ignores_negation (a : Ast) (c : conditionChecker)
    (x lo hi : ExprNode) (not1 not2 : Bool) (truth1 truth2 : Int) :
    check a c (.BetweenExpr x lo hi not1) = check a c (.BetweenExpr x lo hi not2) ∧
      check a c (.IsNullExpr x not1) = check a c (.IsNullExpr x not2) ∧
      check a c (.IsTruthExpr x not1 truth1) =
        check a c (.IsTruthExpr x not2 truth2) ∧
      (check a c (.BetweenExpr x lo hi true) = some true ↔
        check a c (.BetweenExpr x lo hi false) = some true) ∧
      (check a c (.IsNullExpr x true) = some true ↔
        check a c (.IsNullExpr x false) = some true) := by
  have hb : ∀ n1 n2, check a c (.BetweenExpr x lo hi n1) =
      check a c (.BetweenExpr x lo hi n2) := by
    intro n1 n2
    simp only [check]
  have hn : ∀ n1 n2, check a c (.IsNullExpr x n1) =
      check a c (.IsNullExpr x n2) := by
    intro n1 n2
    simp only [check]
  refine ⟨hb not1 not2, hn not1 not2, ?_, ?_, ?_⟩
  · simp only [check]
  · rw [hb true false]
  · rw [hn true false]

/-- C11: the prefix rule. For every index scan and active condition list, if at
the column offset `k` no active condition passes the checker, the checker
rejecting each of them there (in particular for the first such offset), then
`buildIndexRange` builds and appends no ranges for the column at offset `k` or
a later one: whatever the range builder and whatever the conditions on later
columns, its outcome, the Ranges and the error, is the outcome for the index
truncated to its first `k` columns. -/
theorem buildIndexRange_prefix_rule (a : Ast) (ops : RangeBuilderOps) (r : refiner)
    (p : IndexScan) (k : Nat) (hk : k < p.Index.Columns.length)
    (hno : ∀ cond ∈ r.conditions,
      check a (columnChecker p k) cond = some false) :
    buildIndexRange a ops r p =
      (buildIndexRange a ops r (truncateIndex p k)).map (withIndexOf p) := by
  have hlen : (truncateIndex p k).Index.Columns.length = k := by
    simp only [truncateIndex, List.length_take]
    omega
  have h := columnLoop_truncated a ops r.conditions p k hk hno k 0 {} p
    (by omega) rfl rfl
  unfold buildIndexRange
  rw [hlen]
  simp only [Nat.sub_zero] at h
  rw [h]
  cases columnLoop a ops r.conditions k 0 {} (truncateIndex p k) with
  | none => rfl
  | some out => rfl

/-- Witness of C11: index `(a, b, c)` with the conditions `t.a = 1` and
`t.c = 5`: column `b` is the first without a passing condition, and the ranges
are those of the index `(a)`, the condition on the later column `c` being of no
effect. -/
theorem buildIndexRange_prefix_rule_witness :
    1 < scanABC.Index.Columns.length ∧
      (∀ cond ∈ ({ conditions := [condAEq1, condCEq5] } : refiner).conditions,
        check literalAst (columnChecker scanABC 1) cond = some false) ∧
      check literalAst (columnChecker scanABC 0) condAEq1 = some true ∧
      check literalAst (columnChecker scanABC 2) condCEq5 = some true ∧
      buildIndexRange literalAst sampleOps
          { conditions := [condAEq1, condCEq5] } scanABC =
        (buildIndexRange literalAst sampleOps
          { conditions := [condAEq1, condCEq5] } (truncateIndex scanABC 1)).map
          (withIndexOf scanABC) :=
  have h : ∀ cond ∈ ({ conditions := [condAEq1, condCEq5] } : refiner).conditions,
      check literalAst (columnChecker scanABC 1) cond = some false := by
    intro cond hc
    simp only [List.mem_cons, List.mem_singleton, List.not_mem_nil,
      or_false] at hc
    rcases hc with rfl | rfl <;> decide
  ⟨by decide, h, by decide, by decide,
    buildIndexRange_prefix_rule literalAst sampleOps
      { conditions := [condAEq1, condCEq5] } scanABC 1 (by decide) h⟩

/-- C17: for every index scan in which each of the first `k` index columns has
at least one active condition passing the checker, the checker giving its
verdict on every active condition there, and column `k`, if it exists, has
none, `buildIndexRange` returns with Ranges set to
`appendIndexRanges(... appendIndexRanges(buildIndexRanges(P0), P1) ...,
P(k-1))`, where `Pi` is the left fold of `intersection`, starting from the full
range, over `build(c)` for exactly those active conditions `c` that pass the
checker at column offset `i`, in list order (`rangesUpTo`), and with `err` set
to the error of the builder after these calls. -/
theorem buildIndexRange_eq_rangesUpTo (a : Ast) (ops : RangeBuilderOps)
    (r : refiner) (p : IndexScan) (k : Nat)
    (hk : k ≤ p.Index.Columns.length)
    (hverdict : ∀ i, i < k → ∀ cond ∈ r.conditions,
      check a (columnChecker p i) cond ≠ none)
    (hused : ∀ i, i < k → ∃ cond ∈ r.conditions,
      check a (columnChecker p i) cond = some true)
    (hstop : k < p.Index.Columns.length → ∀ cond ∈ r.conditions,
      check a (columnChecker p k) cond = some false) :
    buildIndexRange a ops r p =
      some ({ r with err := (rangesUpTo a ops r.conditions p k).1.err },
        { p with Ranges := (rangesUpTo a ops r.conditions p k).2 }) := by
  have h := columnLoop_eq_rangesUpTo a ops r.conditions p k hk hverdict hused
    hstop k 0 (by omega)
  unfold buildIndexRange
  simp only [Nat.sub_zero, rangesUpTo] at h
  rw [h]

/-- Witness of C17: index `(a, b)` with the conditions `t.a = 1` and
`t.b IN (2, 3)`: both columns are used, and the sample builder yields the two
ranges `(1, 2)` and `(1, 3)`. -/
theorem buildIndexRange_eq_rangesUpTo_witness :
    2 ≤ scanAB.Index.Columns.length ∧
      (∀ i, i < 2 → ∀ cond ∈ refinerA1B23.conditions,
        check literalAst (columnChecker scanAB i) cond ≠ none) ∧
      (∀ i, i < 2 → ∃ cond ∈ refinerA1B23.conditions,
        check literalAst (columnChecker scanAB i) cond = some true) ∧
      (2 < scanAB.Index.Columns.length → ∀ cond ∈ refinerA1B23.conditions,
        check literalAst (columnChecker scanAB 2) cond = some false) ∧
      (rangesUpTo literalAst sampleOps refinerA1B23.conditions scanAB 2).2 =
        [⟨[.int64 1, .int64 2], false, [.int64 1, .int64 2], false⟩,
          ⟨[.int64 1, .int64 3], false, [.int64 1, .int64 3], false⟩] ∧
      buildIndexRange literalAst sampleOps refinerA1B23 scanAB =
        some ({ refinerA1B23 with
            err := (rangesUpTo literalAst sampleOps refinerA1B23.conditions
              scanAB 2).1.err },
          { scanAB with
            Ranges := (rangesUpTo literalAst sampleOps refinerA1B23.conditions
              scanAB 2).2 }) :=
  have h1 : ∀ i, i < 2 → ∀ cond ∈ refinerA1B23.conditions,
      check literalAst (columnChecker scanAB i) cond ≠ none := by decide
  have h2 : ∀ i, i < 2 → ∃ cond ∈ refinerA1B23.conditions,
      check literalAst (columnChecker scanAB i) cond = some true := by decide
  have h3 : 2 < scanAB.Index.Columns.length → ∀ cond ∈ refinerA1B23.conditions,
      check literalAst (columnChecker scanAB 2) cond = some false := by decide
  ⟨by decide, h1, h2, h3, by decide,
    buildIndexRange_eq_rangesUpTo literalAst sampleOps refinerA1B23 scanAB 2
      (by decide) h1 h2 h3⟩

/-- C13: idempotence. For every refiner state, index scan and Sort node, the
operations of the range builder being deterministic functions of their
arguments, `buildIndexRange` applied twice in a row yields what it yields
applied once, the Ranges and the error included, and `sortBypass` applied
twice in a row yields what it yields applied once, the Bypass and Desc flags
included. -/
theorem refine_idempotent (a : Ast) (ops : RangeBuilderOps) (r : refiner)
    (p : IndexScan) (s : SortPlan) :
    ((buildIndexRange a ops r p).bind fun out =>
        buildIndexRange a ops out.1 out.2) = buildIndexRange a ops r p ∧
      ((sortBypass r s).bind fun out => sortBypass out.1 out.2) =
        sortBypass r s := by
  constructor
  · unfold buildIndexRange
    cases h : columnLoop a ops r.conditions p.Index.Columns.length 0 {} p with
    | none => rfl
    | some out =>
      obtain ⟨rb1, p1⟩ := out
      simp only [Option.some_bind]
      rw [columnLoop_again a ops r.conditions p rb1 p1 h]
  · unfold sortBypass
    cases hs : r.indexScan with
    | none => simp [hs]
    | some scan =>
      by_cases hlen : s.ByItems.length > scan.Index.Columns.length
      · simp [hlen, hs]
      · simp only [hlen, if_false]
        cases hloop : sortBypassLoop scan s.ByItems 0 false with
        | panicked => rfl
        | returned => simp [hs, hlen, hloop]
        | completed desc =>
          cases desc with
          | true =>
            have hl := sortBypassLoop_congr { scan with Desc := true } scan rfl
              rfl s.ByItems 0 false
            simp [hlen, hl, hloop]
          | false => simp [hs, hlen, hloop]

/-- C15: the first error is kept. In a traversal that starts with `err` nil,
every callback is called with `err` nil; when `Leave` on an IndexScan ends a
range construction whose builder holds the error `e`, it sets `err` to `e` and
returns `false`, on which the traversal stops: whatever callbacks the rest of
the traversal holds, an `Enter` or a `Leave` on any plan node, the `Leave` on
another IndexScan whose range construction succeeds included, `err` holds `e`
at the end, and `refine` returns `e`, the first error encountered. `Leave` on
an IndexScan assigns `err` whenever it is called; it is the stop of the
traversal that keeps it from being called again. Of the callbacks themselves,
`Enter` on any node and `Leave` on any node other than an IndexScan return with
`err` holding the error it held, `Leave` with `false` as its second result. -/
theorem first_error_kept (env : Env) (r r1 : refiner) (pre post : List Visit)
    (x x1 : IndexScan) (rb : rangeBuilder) (e : GoString)
    (hstart : r.err = none)
    (hpre : walkVisits env r pre = some (r1, true))
    (hbuild : columnLoop env.ast env.ops r1.conditions x.Index.Columns.length 0
      {} x = some (rb, x1))
    (herr : rb.err = some e) :
    r1.err = none ∧
      Leave env r1 (.IndexScan x) =
        some ({ r1 with err := some e }, .IndexScan x1, false) ∧
      walkVisits env r (pre ++ .leave (.IndexScan x) :: post) =
        some ({ r1 with err := some e }, false) ∧
      (r = {} →
        refine env (pre ++ .leave (.IndexScan x) :: post) = some (some e)) ∧
      (∀ node, (Enter { r1 with err := some e } node).1.err = some e) ∧
      (∀ node, (∀ y, node ≠ .IndexScan y) →
        ∃ out, Leave env { r1 with err := some e } node = some out ∧
          out.1.err = some e ∧ out.2.2 = false) := by
  have hleave : Leave env r1 (.IndexScan x) =
      some ({ r1 with err := some e }, .IndexScan x1, false) := by
    simp only [Leave, buildIndexRange, hbuild, herr, Option.isNone_some]
  have hwalk : walkVisits env r (pre ++ .leave (.IndexScan x) :: post) =
      some ({ r1 with err := some e }, false) := by
    rw [walkVisits_append_going env pre _ r r1 hpre, walkVisits, hleave]
    simp
  refine ⟨(walkVisits_err env pre r (r1, true) hstart hpre).1 rfl, hleave,
    hwalk, ?_, ?_, ?_⟩
  · intro hr
    rw [hr] at hwalk
    simp only [refine, hwalk]
  · intro node
    rcases node with y | y | y | y | kind <;> rfl
  · intro node hnode
    rcases node with y | y | y | y | kind
    · exact ⟨_, rfl, rfl, rfl⟩
    · exact absurd rfl (hnode y)
    · obtain ⟨res, hs, herr2, _⟩ := sortBypass_keeps { r1 with err := some e } y
      refine ⟨(res.1, .Sort res.2, res.1.err.isNone), ?_, ?_, ?_⟩
      · simp only [Leave, hs]
      · simp only [herr2]
      · simp only [herr2, Option.isNone_some]
    · exact ⟨_, rfl, rfl, rfl⟩
    · exact ⟨_, rfl, rfl, rfl⟩

/-- Witness of C15: the traversal of `N(Filter(IndexScan), Filter(IndexScan))`
with the sample range builder. The construction of the first scan, on
`t.a BETWEEN 1 AND 2`, fails; that of the second scan, on `t.a = 1`, would
succeed: `refine` returns the error of the first, where the callbacks made to
the end without the stop would end with `err` nil. -/
theorem first_error_kept_witness :
    ({} : refiner).err = none ∧
      walkVisits sampleEnv {} visitsToFirstLeave =
        some ({ conditions := [condABetween], indexScan := some scanAB }, true) ∧
      columnLoop sampleEnv.ast sampleEnv.ops [condABetween]
          scanAB.Index.Columns.length 0 {} scanAB =
        some ({ err := some (str "unsupported") }, scanABAfterBetween) ∧
      (Leave sampleEnv { conditions := [condAEq1], indexScan := some scanAB }
          (.IndexScan scanAB)).map (fun out => (out.1.err, out.2.2)) =
        some (none, true) ∧
      (runVisits sampleEnv {}
          (visitsToFirstLeave ++
            .leave (.IndexScan scanAB) :: visitsAfterFirstLeave)).map
          (fun r => r.err) = some none ∧
      refine sampleEnv
          (visitsToFirstLeave ++
            .leave (.IndexScan scanAB) :: visitsAfterFirstLeave) =
        some (some (str "unsupported")) :=
  have hpre : walkVisits sampleEnv {} visitsToFirstLeave =
      some ({ conditions := [condABetween], indexScan := some scanAB }, true) :=
    rfl
  have hbuild : columnLoop sampleEnv.ast sampleEnv.ops [condABetween]
      scanAB.Index.Columns.length 0 {} scanAB =
      some ({ err := some (str "unsupported") }, scanABAfterBetween) := by
    decide
  ⟨rfl, hpre, hbuild, by decide, by decide,
    (first_error_kept sampleEnv {}
      { conditions := [condABetween], indexScan := some scanAB }
      visitsToFirstLeave visitsAfterFirstLeave scanAB scanABAfterBetween
      { err := some (str "unsupported") } (str "unsupported") rfl hpre hbuild
      rfl).2.2.2.1 rfl⟩

/-- C16, the claim as stated fails: in the traversal of
`N(Filter(IndexScan), IndexScan)`, when `Leave` is called on the second scan,
which is under no Filter, the Filter has been left and its list is still the
list of active conditions; the ranges of the second scan are built from the
condition `t.a = 1` of that Filter, where no active condition would leave them
as they are. -/
theorem conditions_outlive_filter :
    (runVisits sampleEnv {} visitsToSecondScan).map (fun r => r.conditions) =
        some filterA1.Conditions ∧
      ((runVisits sampleEnv {} visitsToSecondScan).bind fun r =>
          (Leave sampleEnv r (.IndexScan scanAB)).map fun out =>
            rangesOf out.2.1) =
        some [⟨[.int64 1], false, [.int64 1], false⟩] ∧
      (Leave sampleEnv {} (.IndexScan scanAB)).map (fun out => rangesOf out.2.1) =
        some [] :=
  ⟨rfl, by decide, by decide⟩

/-- C16, amended: the conditions of a Filter become the active conditions when
`Enter` is called on it and stay active until `Enter` is called on another
Filter: `Enter` on any other node and every `Leave` leave the active
conditions as they are. So after every sequence of Enter/Leave calls the active
conditions, those `buildIndexRange` uses when `Leave` is called on an
IndexScan, are the list of the Filter entered last (`activeAfter`), whether
that Filter has been left or not. -/
theorem active_conditions (env : Env) (r : refiner) :
    (∀ x, (Enter r (.Filter x)).1.conditions = x.Conditions) ∧
      (∀ node, (∀ x, node ≠ .Filter x) →
        (Enter r node).1.conditions = r.conditions) ∧
      (∀ node out, Leave env r node = some out →
        out.1.conditions = r.conditions) ∧
      (∀ visits r1, runVisits env r visits = some r1 →
        r1.conditions = activeAfter r.conditions visits) ∧
      (∀ x, (Leave env r (.IndexScan x)).map (fun out => rangesOf out.2.1) =
        (buildIndexRange env.ast env.ops r x).map fun out => out.2.Ranges) := by
  refine ⟨fun x => rfl, ?_, Leave_conditions env r,
    fun visits r1 => runVisits_conditions env visits r r1, ?_⟩
  · intro node hnode
    rcases node with x | x | x | x | kind
    · exact absurd rfl (hnode x)
    · rfl
    · rfl
    · rfl
    · rfl
  · intro x
    simp only [Leave]
    cases buildIndexRange env.ast env.ops r x with
    | none => rfl
    | some out => rfl

/-- Witness of C16, amended: the traversal of `N(Filter(IndexScan),
IndexScan)` up to the second scan. -/
theorem active_conditions_witness :
    runVisits sampleEnv {} visitsToSecondScan =
        some { conditions := [condAEq1], indexScan := some scanAB } ∧
      activeAfter [] visitsToSecondScan = [condAEq1] ∧
      ({ conditions := [condAEq1], indexScan := some scanAB } : refiner).conditions =
        activeAfter ({} : refiner).conditions visitsToSecondScan :=
  have h : runVisits sampleEnv {} visitsToSecondScan =
      some { conditions := [condAEq1], indexScan := some scanAB } := rfl
  ⟨h, rfl, (active_conditions sampleEnv {}).2.2.2.1 visitsToSecondScan _ h⟩

/-- C20: every access into the column list of the index is in bounds. The loop
of `sortBypass`, reached only when the sort has no more keys than the index
has columns, never reads `idx.Columns[i]` out of range, so that `sortBypass`
always returns. In `buildIndexRange` the checker for column `i` is made only
for `i` smaller than the number of index columns: `checkColumnExpr` with such a
checker never reads `idx.Columns[columnOffset]` out of range, a panic of
`buildIndexRange` is a panic of `check` with one of these checkers, and for an
index with zero columns no checker is made and the call returns at once. -/
theorem index_accesses_in_bounds (a : Ast) (ops : RangeBuilderOps)
    (r : refiner) (s : SortPlan) (p : IndexScan) :
    (∃ out, sortBypass r s = some out) ∧
      (∀ scan items i desc, i + List.length items ≤ scan.Index.Columns.length →
        sortBypassLoop scan items i desc ≠ .panicked) ∧
      (∀ i e, i < p.Index.Columns.length →
        (∃ col, indexAt (columnChecker p i).idx.Columns
            (columnChecker p i).columnOffset = some col) ∧
          checkColumnExpr (columnChecker p i) e ≠ none) ∧
      (buildIndexRange a ops r p = none →
        ∃ i, i < p.Index.Columns.length ∧
          ∃ cond ∈ r.conditions, check a (columnChecker p i) cond = none) ∧
      (p.Index.Columns = [] →
        buildIndexRange a ops r p = some ({ r with err := none }, p)) := by
  refine ⟨?_, sortBypassLoop_ne_panicked, ?_, ?_, ?_⟩
  · obtain ⟨out, h, _⟩ := sortBypass_keeps r s
    exact ⟨out, h⟩
  · intro i e hi
    have hcol : indexAt (columnChecker p i).idx.Columns
        (columnChecker p i).columnOffset = some (p.Index.Columns.get ⟨i, hi⟩) := by
      simp [indexAt, columnChecker, List.getElem?_eq_getElem hi]
    refine ⟨⟨_, hcol⟩, ?_⟩
    unfold checkColumnExpr
    split
    · rw [hcol]
      split
      · simp
      · split
        · rename_i heq
          simp at heq
        · split <;> simp
    · simp
  · intro h
    unfold buildIndexRange at h
    cases hl : columnLoop a ops r.conditions p.Index.Columns.length 0 {} p with
    | none =>
      obtain ⟨j, _, hj, hc⟩ := columnLoop_none a ops r.conditions p _ _ _ _
        rfl rfl hl
      exact ⟨j, by omega, hc⟩
    | some out => rw [hl] at h; simp at h
  · intro h
    unfold buildIndexRange
    rw [h]
    rfl

/-- Witness of C20: index `(a, b)`; the only panic of `buildIndexRange` on the
condition `t.a LIKE ''` is the one of `check` at column 0, which is not an
access to the column list. -/
theorem index_accesses_in_bounds_witness :
    0 < scanAB.Index.Columns.length ∧
      checkColumnExpr (columnChecker scanAB 0) (colRef "t" "a") ≠ none ∧
      buildIndexRange literalAst sampleOps { conditions := [condALikeEmpty] }
          scanAB = none ∧
      ∃ i, i < scanAB.Index.Columns.length ∧
        ∃ cond ∈ ({ conditions := [condALikeEmpty] } : refiner).conditions,
          check literalAst (columnChecker scanAB i) cond = none :=
  have h := index_accesses_in_bounds literalAst sampleOps
    { conditions := [condALikeEmpty] } sortAscAB scanAB
  ⟨by decide, (h.2.2.1 0 (colRef "t" "a") (by decide)).2, rfl, h.2.2.2.1 rfl⟩

end Plan
